import Mathlib

/-
Verification model of the mastring crate's core byte-buffer type
(`MAByteString` in src/bytestring.rs, `InnerLong` in src/inner.rs).

The embedding targets a 64-bit little-endian platform:
  * machine word = 8 bytes, so an `MAByteString` is 32 bytes and
    `SHORTLEN = size_of::<InnerLong>() - 1 = 31`;
  * `AtomicUsize` has size 8 and alignment 8;
  * allocations handed out by the allocator are assumed 8-byte aligned
    (the same assumption the Rust code makes when it computes
    `end.align_offset(align_of::<AtomicUsize>())`), so the alignment
    offset of `ptr + n` is `alignUp8 n - n`.

The heap is modelled explicitly: payload allocations live in
`Heap.allocs` (indexed by allocation id), and control blocks -- the
`AtomicUsize` cells holding `2 * refcount + placement-bit` -- live in
`Heap.cbs` (indexed by cell id).  A control block cell records, as ghost
data, whether it is placed inline inside a payload allocation (and at
which byte offset) or separately allocated (`Box`); in the running code
the same information is carried by bit 0 of the cell value and by the
pointer's address, and the model keeps value bit and placement in sync.

A handle (`MAByteString` value) is either
  * `short data`   : the inline representation, `data` = the meaningful
                     bytes (the `len` byte holds `0x80 + data.length`);
  * `lstatic b`    : the Long representation with `cap = 0`, pointing at
                     static memory `b`;
  * `lheap len aid cap cbp` : the Long representation pointing at heap
                     allocation `aid`, with stored capacity `cap` and
                     control-block pointer `cbp` (`none` = null).

Atomics are modelled sequentially: every load/CAS/fetch-add is a plain
read/write of the heap cell, which is the single-thread semantics of the
code's atomic protocol (the claims treated here are not about races).
-/

namespace Mastring

/-- Size (and alignment) of `AtomicUsize` on the modelled platform. -/
def WORDB : Nat := 8

/-- `SHORTLEN = size_of::<InnerLong>() - 1` on a 64-bit platform. -/
def SHORTLEN : Nat := 31

/-- Number of values of `usize`: `2^64`. -/
def USIZE : Nat := 2 ^ 64

/-- `usize::MAX / 2`, the clone refcount guard threshold from
`impl Clone for MAByteString`. -/
def HALFMAX : Nat := (USIZE - 1) / 2

/-- Round `n` up to a multiple of 8; `alignUp8 n = n + align_offset(ptr+n)`
for an 8-aligned `ptr`. -/
def alignUp8 (n : Nat) : Nat := ((n + 7) / 8) * 8

/-- Pointwise update of a heap map. -/
def upd {α : Type} (f : Nat → Option α) (k : Nat) (v : Option α) : Nat → Option α :=
  fun i => if i = k then v else f i

/-- A payload allocation: the raw bytes of the allocation
(`data.length` = the allocation's capacity in bytes). -/
structure Alloc where
  data : List Nat
  deriving Repr, DecidableEq

/-- A control block cell (`AtomicUsize`).  `val` is the stored value
(`2 * refcount + placement-bit`); `place = some (aid, off)` records that
the cell lives inline at byte offset `off` of allocation `aid`,
`place = none` that it is separately allocated (`Box`). -/
structure CbCell where
  val : Nat
  place : Option (Nat × Nat)
  deriving Repr, DecidableEq

/-- The heap: payload allocations and control-block cells, with
allocation counters (fresh ids are `nA` resp. `nC`). -/
structure Heap where
  allocs : Nat → Option Alloc
  nA : Nat
  cbs : Nat → Option CbCell
  nC : Nat

/-- The empty heap. -/
def H0 : Heap := ⟨fun _ => none, 0, fun _ => none, 0⟩

/-- A `Vec<u8>`: its meaningful bytes and its capacity
(`data.length ≤ cap`). -/
structure MVec where
  data : List Nat
  cap : Nat
  deriving Repr, DecidableEq

/-- The bytes an allocation of capacity `cap` holds after moving a vec's
contents in: the data followed by uninitialised (here: zero) bytes. -/
def padTo (l : List Nat) (c : Nat) : List Nat := l ++ List.replicate (c - l.length) 0

/-- An `MAByteString` value (one fixed-size tagged-union object). -/
inductive Handle where
  | short (data : List Nat)
  | lstatic (bytes : List Nat)
  | lheap (len aid cap : Nat) (cbp : Option Nat)
  deriving Repr, DecidableEq

/-- Allocation id referenced by a handle, if it is a heap-backed Long. -/
def aidOf : Handle → Option Nat
  | .lheap _ aid _ _ => some aid
  | _ => none

/-- Control-block pointer of a handle (always null for Short/static). -/
def cbpOf : Handle → Option Nat
  | .lheap _ _ _ cbp => cbp
  | _ => none

/-- Whether a handle's control-block pointer targets cell `c`. -/
def pointsTo (h : Handle) (c : Nat) : Bool :=
  match h with
  | .lheap _ _ _ (some c2) => c2 == c
  | _ => false

/-- Whether the handle is in the Long representation. -/
def isLong : Handle → Bool
  | .short _ => false
  | _ => true

/-- `Deref::deref`: the observable byte contents of a handle. -/
def derefBytes (H : Heap) : Handle → List Nat
  | .short d => d
  | .lstatic b => b
  | .lheap len aid _ _ =>
    match H.allocs aid with
    | some a => a.data.take len
    | none => []

/-- `InnerLong::usablecap`, structurally: the code compares the control
block's address with the data pointer and returns
`if cbptr < ptr then cap else min (cbptr - ptr) cap`.  For an inline
block at offset `off` of this allocation that is `min off cap`; for a
separately allocated block (disjoint from the payload allocation) it is
`cap` (see `usablecapAddr` and claim C7 for the address-level fact). -/
def usablecapS (H : Heap) (aid cap : Nat) (cbp : Option Nat) : Nat :=
  match cbp with
  | none => cap
  | some c =>
    match H.cbs c with
    | none => cap
    | some cell =>
      match cell.place with
      | none => cap
      | some pa => if pa.1 = aid then min pa.2 cap else cap

/-- The address-level computation inside `InnerLong::usablecap`
(the branch taken when `cbptr` is non-null). -/
def usablecapAddr (ptr cap cbaddr : Nat) : Nat :=
  if cbaddr < ptr then cap else min (cbaddr - ptr) cap

/-- `MAByteString::capacity`. -/
def capacityH (H : Heap) : Handle → Nat
  | .short _ => SHORTLEN
  | .lstatic _ => 0
  | .lheap _ aid cap cbp => usablecapS H aid cap cbp

/-- `MAByteString::get_mode`. -/
def getModeH (H : Heap) : Handle → String
  | .short _ => "short"
  | .lstatic _ => "static"
  | .lheap _ _ _ cbp =>
    match cbp with
    | none => "unique"
    | some c =>
      match H.cbs c with
      | none => "unique"
      | some cell =>
        if cell.val % 2 = 0 then
          if cell.val ≤ 3 then "cbowned (unique)" else "cbowned (shared)"
        else
          if cell.val ≤ 3 then "cbinline (unique)" else "cbinline (shared)"

/-- Well-formedness of a handle with respect to the heap: the
representation invariants the Rust type maintains (live backing
allocation of matching capacity, `len ≤ cap`, a live control block with
value ≥ 2 whose bit 0 matches its placement, an inline block placed
after the payload and inside the allocation). -/
def wfL (H : Heap) : Handle → Bool
  | .short d => decide (d.length ≤ SHORTLEN)
  | .lstatic _ => true
  | .lheap len aid cap cbp =>
    decide (aid < H.nA) &&
    (match H.allocs aid with
     | none => false
     | some a => decide (a.data.length = cap) && decide (0 < cap) && decide (len ≤ cap)) &&
    (match cbp with
     | none => true
     | some c =>
       decide (c < H.nC) &&
       (match H.cbs c with
        | none => false
        | some cell =>
          decide (2 ≤ cell.val) && decide (cell.val < USIZE) &&
          (match cell.place with
           | none => decide (cell.val % 2 = 0)
           | some pa =>
             decide (cell.val % 2 = 1) && decide (pa.1 = aid) &&
             decide (len ≤ pa.2) && decide (pa.2 + 8 ≤ cap))))

/-- Overwrite the value of control-block cell `c` (an atomic store /
fetch-add result), keeping its placement. -/
def setCbVal (H : Heap) (c v : Nat) : Heap :=
  match H.cbs c with
  | some cell => { H with cbs := upd H.cbs c (some { val := v, place := cell.place }) }
  | none => H

/-- Free a separately allocated control block (`Box::from_raw`). -/
def freeCb (H : Heap) (c : Nat) : Heap := { H with cbs := upd H.cbs c none }

/-- Free a payload allocation (`Vec::from_raw_parts` + drop).  A control
block placed inline in the allocation dies with it. -/
def freeAlloc (H : Heap) (aid : Nat) : Heap :=
  { allocs := upd H.allocs aid none
    nA := H.nA
    cbs := fun i =>
      match H.cbs i with
      | some cell =>
        match cell.place with
        | some pa => if pa.1 = aid then none else some cell
        | none => some cell
      | none => none
    nC := H.nC }

/-- `impl Drop for InnerLong`, for a non-static Long (`cap ≠ 0`):
decrement by 2 with the pre-decrement value deciding the frees. -/
def dropLong (H : Heap) (aid : Nat) (cbp : Option Nat) : Heap :=
  match cbp with
  | none => freeAlloc H aid
  | some c =>
    match H.cbs c with
    | none => H
    | some cell =>
      let old := cell.val
      let H1 := setCbVal H c ((old + (USIZE - 2)) % USIZE)
      if 3 < old then H1
      else freeAlloc (if old % 2 = 0 then freeCb H1 c else H1) aid

/-- `impl Drop for MAByteString` (short: nothing; static: `cap = 0`
so `InnerLong`'s drop does nothing). -/
def dropH (H : Heap) : Handle → Heap
  | .short _ => H
  | .lstatic _ => H
  | .lheap _ aid _ cbp => dropLong H aid cbp

/-- Does the spare capacity of the vec admit an inline control block?
(`cbrequired <= cap` in `InnerLong::from_vec`.) -/
def cbFits (v : MVec) (mincap : Nat) : Bool :=
  decide (alignUp8 (max v.data.length mincap) + 8 ≤ v.cap)

/-- The final inline control-block offset `cbstart` computed by
`InnerLong::from_vec` (pushed to the end of the allocation by
`cbextraspace`). -/
def cbOffOf (v : MVec) (mincap : Nat) : Nat :=
  let c0 := alignUp8 (max v.data.length mincap)
  c0 + ((v.cap - (c0 + 8)) / 8) * 8

/-- `InnerLong::from_vec` (requires `mincap ≤ v.cap`, which the code
asserts): move the vec's allocation in, eagerly installing an inline
control block (value 3 = refcount 1, inline bit) when there is room. -/
def innerFromVec (H : Heap) (v : MVec) (allowcb : Bool) (mincap : Nat) : Heap × Handle :=
  let len := v.data.length
  let cap := v.cap
  let aid := H.nA
  if allowcb && cbFits v mincap then
    ({ allocs := upd H.allocs aid (some ⟨padTo v.data cap⟩)
       nA := aid + 1
       cbs := upd H.cbs H.nC (some ⟨3, some (aid, cbOffOf v mincap)⟩)
       nC := H.nC + 1 },
     Handle.lheap len aid cap (some H.nC))
  else
    ({ allocs := upd H.allocs aid (some ⟨padTo v.data cap⟩)
       nA := aid + 1
       cbs := H.cbs
       nC := H.nC },
     Handle.lheap len aid cap none)

/-- `InnerLong::from_slice`: allocate `veccap = alignUp8 (max len mincap) + 8`
bytes, copy, delegate to `from_vec`. -/
def innerFromSlice (H : Heap) (s : List Nat) (allowcb : Bool) (mincap : Nat) : Heap × Handle :=
  innerFromVec H ⟨s, alignUp8 (max s.length mincap) + 8⟩ allowcb mincap

/-- `MAByteString::from_slice`. -/
def fromSlice (H : Heap) (s : List Nat) : Heap × Handle :=
  if s.length ≤ SHORTLEN then (H, .short s) else innerFromSlice H s true 0

/-- `MAByteString::from_vec` (requires `v.data.length ≤ v.cap`). -/
def fromVec (H : Heap) (v : MVec) : Heap × Handle :=
  if v.data.length ≤ SHORTLEN then (H, .short v.data) else innerFromVec H v true 0

/-- `MAByteString::from_static` (no allocation, so no heap argument). -/
def fromStatic (s : List Nat) : Handle :=
  if s.length ≤ SHORTLEN then .short s else .lstatic s

/-- `impl Clone for MAByteString`.  Returns the (possibly updated)
original handle and the new handle, or `none` for the refcount-overflow
panic.  The lazy control-block install (value 2 = refcount 1, owned bit)
plus the `fetch_add(2)` / guard / `fetch_sub(2)` sequence are modelled
exactly; the CAS always succeeds (single-threaded semantics). -/
def cloneH (H : Heap) : Handle → Heap × Option (Handle × Handle)
  | .short d => (H, some (.short d, .short d))
  | .lstatic b => (H, some (.lstatic b, .lstatic b))
  | .lheap len aid cap cbp =>
    let inst : Heap × Nat :=
      match cbp with
      | some c => (H, c)
      | none => ({ H with cbs := upd H.cbs H.nC (some ⟨2, none⟩), nC := H.nC + 1 }, H.nC)
    match inst.1.cbs inst.2 with
    | none => (inst.1, none)
    | some cell =>
      let old := cell.val
      let H2 := setCbVal inst.1 inst.2 ((old + 2) % USIZE)
      if HALFMAX < old then
        (setCbVal H2 inst.2 ((((old + 2) % USIZE) + (USIZE - 2)) % USIZE), none)
      else
        (H2, some (.lheap len aid cap (some inst.2), .lheap len aid cap (some inst.2)))

/-- `InnerLong::make_unique` (for Long handles; the static case is the
`cap == 0` branch).  `*self = InnerLong::from_slice(..)` drops the old
value, which is the `dropLong` in the copy branch. -/
def makeUnique (H : Heap) (h : Handle) (mincap : Nat) (allowcb : Bool) : Heap × Handle :=
  match h with
  | .short d => (H, .short d)
  | .lstatic b => innerFromSlice H b allowcb mincap
  | .lheap len aid cap cbp =>
    match cbp with
    | none => (H, .lheap len aid cap none)
    | some c =>
      match H.cbs c with
      | none => (H, .lheap len aid cap (some c))
      | some cell =>
        if cell.val / 2 = 1 then
          if allowcb then (H, .lheap len aid cap (some c))
          else
            ((if cell.val % 2 = 0 then freeCb H c else H), .lheap len aid cap none)
        else
          let r := innerFromSlice H (derefBytes H (.lheap len aid cap (some c))) allowcb mincap
          (dropLong r.1 aid (some c), r.2)

/-- `InnerLong::reserve` (callers must have established uniqueness). -/
def innerReserve (H : Heap) (h : Handle) (mincap : Nat) (allowcb : Bool) : Heap × Handle :=
  match h with
  | .lheap len aid cap cbp =>
    if mincap ≤ cap then
      if mincap ≤ usablecapS H aid cap cbp then (H, .lheap len aid cap cbp)
      else (H, .lheap len aid cap none)
    else
      let r := innerFromSlice H (derefBytes H (.lheap len aid cap cbp)) allowcb (max mincap (cap * 2))
      (dropLong r.1 aid cbp, r.2)
  | x => (H, x)

/-- `MAByteString::reserve`. -/
def reserveH (H : Heap) (h : Handle) (mincap : Nat) : Heap × Handle :=
  match h with
  | .short d =>
    if SHORTLEN < mincap then innerFromSlice H d true (max mincap (SHORTLEN * 2))
    else (H, .short d)
  | x =>
    let r := makeUnique H x mincap true
    innerReserve r.1 r.2 mincap true

/-- `MAByteString::reserve_extra_internal`: ensure room for `extracap`
more bytes past the current length; the `Bool` is the short-mode flag
it returns (the returned pointer/length are recoverable from the
handle, whose `len` field is unchanged on every path). -/
def reserveExtraInternal (H : Heap) (h : Handle) (extracap : Nat) : Heap × Handle × Bool :=
  match h with
  | .short d =>
    if SHORTLEN < d.length + extracap then
      let r := innerFromSlice H d true (max (d.length + extracap) (SHORTLEN * 2))
      (r.1, r.2, false)
    else (H, .short d, true)
  | .lstatic b =>
    let r := makeUnique H (.lstatic b) (b.length + extracap) true
    let r2 := innerReserve r.1 r.2 (b.length + extracap) true
    (r2.1, r2.2, false)
  | .lheap len aid cap cbp =>
    let r := makeUnique H (.lheap len aid cap cbp) (len + extracap) true
    let r2 := innerReserve r.1 r.2 (len + extracap) true
    (r2.1, r2.2, false)

/-- Write `bytes` into allocation `aid` starting at byte offset `off`
(`ptr::copy_nonoverlapping`). -/
def allocWrite (H : Heap) (aid off : Nat) (bytes : List Nat) : Heap :=
  match H.allocs aid with
  | none => H
  | some a =>
    { H with
      allocs := upd H.allocs aid
        (some ⟨a.data.take off ++ bytes ++ a.data.drop (off + bytes.length)⟩) }

/-- `impl AddAssign<&[u8]> for MAByteString`. -/
def addAssignH (H : Heap) (h : Handle) (t : List Nat) : Heap × Handle :=
  match reserveExtraInternal H h t.length with
  | (H1, .short d, true) => (H1, .short (d ++ t))
  | (H1, .lheap len aid cap cbp, _) =>
    (allocWrite H1 aid len t, .lheap (len + t.length) aid cap cbp)
  | (H1, x, _) => (H1, x)

/-- Mutation through `DerefMut` (`deref_mut` forces uniqueness via
`make_unique(0, true)`, then the caller writes through the returned
slice; `bytes` is what gets written at the start of the payload). -/
def derefMutWrite (H : Heap) (h : Handle) (bytes : List Nat) : Heap × Handle :=
  match h with
  | .short _ => (H, .short bytes)
  | x =>
    let r := makeUnique H x 0 true
    match r.2 with
    | .lheap len aid cap cbp => (allocWrite r.1 aid 0 bytes, .lheap len aid cap cbp)
    | y => (r.1, y)

/-- `MAByteString::into_vec`: the byte contents of the returned `Vec`. -/
def intoVec (H : Heap) (h : Handle) : Heap × List Nat :=
  match h with
  | .short d => (H, d)
  | x =>
    let r := makeUnique H x 0 true
    (r.1, derefBytes r.1 r.2)

/-- `MAByteString::clear`. -/
def clearH (H : Heap) : Handle → Heap × Handle
  | .short _ => (H, .short [])
  | .lstatic _ => (H, .short [])
  | .lheap _ aid cap cbp =>
    match cbp with
    | none => (H, .lheap 0 aid cap none)
    | some c =>
      match H.cbs c with
      | none => (H, .lheap 0 aid cap (some c))
      | some cell =>
        if cell.val / 2 = 1 then (H, .lheap 0 aid cap (some c))
        else (dropLong H aid (some c), .short [])

/-- The heap after `clone` lazily installs a fresh outline control
block (value 2 = refcount 1, owned bit) at id `H.nC` -- the
`Box::into_raw(Box::new(AtomicUsize::new(2)))` plus successful CAS. -/
def installCb (H : Heap) : Heap :=
  { H with cbs := upd H.cbs H.nC (some ⟨2, none⟩), nC := H.nC + 1 }

/-- The `len` field of a handle (for Short, the decoded inline length). -/
def lenOf : Handle → Nat
  | .short d => d.length
  | .lstatic b => b.length
  | .lheap len _ _ _ => len

/-- The handle is uniquely owned: either its control-block pointer is
null, or the control block it references reads refcount 1. -/
def uniqueish (H : Heap) (h : Handle) : Prop :=
  ∀ len aid cap c, h = Handle.lheap len aid cap (some c) →
    ∃ cell, H.cbs c = some cell ∧ cell.val ≤ 3

/-- What a fresh Long buffer produced by `InnerLong::from_vec` /
`from_slice` looks like: contents `din`, a fresh allocation of capacity
`cap` at id `H.nA`, possibly a fresh inline control block at id `H.nC`,
the rest of the heap unchanged. -/
structure FreshSpec (H : Heap) (din : List Nat) (cap mincap : Nat) (r : Heap × Handle) : Prop where
  allocSelf : r.1.allocs H.nA = some ⟨padTo din cap⟩
  allocsNe : ∀ i, i ≠ H.nA → r.1.allocs i = H.allocs i
  cbsOld : ∀ c, c ≠ H.nC → r.1.cbs c = H.cbs c
  nAEq : r.1.nA = H.nA + 1
  nCGe : H.nC ≤ r.1.nC
  derefEq : derefBytes r.1 r.2 = din
  wf : wfL r.1 r.2 = true
  capGe : max din.length mincap ≤ capacityH r.1 r.2
  cbCase :
    (r.2 = Handle.lheap din.length H.nA cap none ∧ r.1.cbs = H.cbs ∧ r.1.nC = H.nC) ∨
    (r.2 = Handle.lheap din.length H.nA cap (some H.nC) ∧
      r.1.cbs H.nC = some ⟨3, some (H.nA, cbOffOf ⟨din, cap⟩ mincap)⟩ ∧
      r.1.nC = H.nC + 1)

/-- A one-cell heap whose control block sits at the overflow threshold. -/
def overflowHeap : Heap :=
  ⟨fun _ => none, 1, upd (fun _ => none) 0 (some ⟨2 ^ 63, none⟩), 1⟩

/-- Two handles may alias the same payload allocation only when both go
through the same control block and that block's value reads at least 4
(refcount at least 2) -- which is exactly the situation `clone`
establishes. -/
def aliasOK (H : Heap) (x y : Handle) : Prop :=
  ∀ aid, aidOf x = some aid → aidOf y = some aid →
    ∃ c cell, cbpOf x = some c ∧ cbpOf y = some c ∧ H.cbs c = some cell ∧ 4 ≤ cell.val

/-- The 45-byte owned vec with exactly enough capacity (no room for an
inline control block). -/
def c6vec : MVec := ⟨List.replicate 45 66, 45⟩

/-- The buffer built from `c6vec` (mode `unique`). -/
def c6s1 : Heap × Handle := fromVec H0 c6vec

/-- The two handles after cloning: both are this value. -/
def c6h : Handle := Handle.lheap 45 0 45 (some 0)

/-- The heap after the clone. -/
def c6H2 : Heap := (cloneH c6s1.1 c6s1.2).1

/-- The heap after dropping one of the two handles. -/
def c6H3 : Heap := dropH c6H2 c6h

/-! ### Global states: many live handles over one heap -/

/-- A global state: the heap plus the list of live handles. -/
def GState := Heap × List Handle

/-- Number of live handles whose control-block pointer targets cell
`c` -- what the control block's count must equal. -/
def countH (hs : List Handle) (c : Nat) : Nat := hs.countP (fun h => pointsTo h c)

/-- Two handles may share a payload allocation only through one common
control block. -/
def compatH (h1 h2 : Handle) : Prop :=
  ∀ a, aidOf h1 = some a → aidOf h2 = some a →
    ∃ c, cbpOf h1 = some c ∧ cbpOf h2 = some c

/-- The operations other code can perform on a set of live handles:
cloning one of them (when the clone does not panic), or dropping one. -/
inductive StepG : GState → GState → Prop where
  | cloneStep : ∀ (H : Heap) (hs1 hs2 : List Handle) (a : Handle) (H2 : Heap)
      (a2 b : Handle), cloneH H a = (H2, some (a2, b)) →
      StepG (H, hs1 ++ a :: hs2) (H2, hs1 ++ a2 :: (hs2 ++ [b]))
  | dropStep : ∀ (H : Heap) (hs1 hs2 : List Handle) (a : Handle),
      StepG (H, hs1 ++ a :: hs2) (dropH H a, hs1 ++ hs2)

/-- Initial states: a single handle built by one of the constructors on
the empty heap. -/
inductive InitG : GState → Prop where
  | fromSliceInit : ∀ s : List Nat, InitG ((fromSlice H0 s).1, [(fromSlice H0 s).2])
  | fromVecInit : ∀ v : MVec, v.data.length ≤ v.cap →
      InitG ((fromVec H0 v).1, [(fromVec H0 v).2])
  | fromStaticInit : ∀ s : List Nat, InitG (H0, [fromStatic s])
  | newInit : InitG (H0, [Handle.short []])

/-- Reachable global states. -/
inductive ReachG : GState → Prop where
  | init : ∀ s, InitG s → ReachG s
  | next : ∀ s s2, ReachG s → StepG s s2 → ReachG s2

/-- The global invariant: every live handle is well-formed, every live
control block's count equals the number of live handles pointing at it,
and handles sharing an allocation share a control block. -/
structure InvG (s : GState) : Prop where
  wfAll : ∀ h ∈ s.2, wfL s.1 h = true
  cbCount : ∀ c cell, s.1.cbs c = some cell →
    cell.val / 2 = countH s.2 c ∧ 1 ≤ countH s.2 c ∧ cell.val < USIZE
  pw : List.Pairwise compatH s.2

/-! ### Arithmetic and list helper lemmas -/

theorem USIZE_eq : USIZE = 18446744073709551616 := by norm_num [USIZE]

theorem HALFMAX_eq : HALFMAX = 9223372036854775807 := by norm_num [HALFMAX, USIZE_eq]

theorem alignUp8_ge (n : Nat) : n ≤ alignUp8 n := by
  unfold alignUp8
  omega

theorem alignUp8_lt (n : Nat) : alignUp8 n < n + 8 := by
  unfold alignUp8
  omega

theorem add2_mod (a : Nat) (h : a + 2 < USIZE) : (a + 2) % USIZE = a + 2 :=
  Nat.mod_eq_of_lt h

theorem sub2_mod (a : Nat) (h2 : 2 ≤ a) (hu : a < USIZE) :
    (a + (USIZE - 2)) % USIZE = a - 2 := by
  have h1 : a + (USIZE - 2) = (a - 2) + USIZE := by
    have := USIZE_eq
    omega
  rw [h1, Nat.add_mod_right, Nat.mod_eq_of_lt (by omega)]

theorem restore_mod (a : Nat) (hu : a < USIZE) :
    ((a + 2) % USIZE + (USIZE - 2)) % USIZE = a := by
  have hU := USIZE_eq
  rcases Nat.lt_or_ge (a + 2) USIZE with h | h
  · rw [Nat.mod_eq_of_lt h]
    have h1 : a + 2 + (USIZE - 2) = a + USIZE := by omega
    rw [h1, Nat.add_mod_right, Nat.mod_eq_of_lt hu]
  · have h1 : (a + 2) % USIZE = a + 2 - USIZE := by
      rw [Nat.mod_eq_sub_mod h, Nat.mod_eq_of_lt (by omega)]
    rw [h1]
    have h2 : a + 2 - USIZE + (USIZE - 2) = a := by omega
    rw [h2, Nat.mod_eq_of_lt hu]

theorem upd_self {α : Type} (f : Nat → Option α) (k : Nat) (v : Option α) :
    upd f k v k = v := by simp [upd]

theorem upd_ne {α : Type} (f : Nat → Option α) (k i : Nat) (v : Option α) (h : i ≠ k) :
    upd f k v i = f i := by simp [upd, h]

theorem take_len_append (l r : List Nat) : (l ++ r).take l.length = l :=
  List.take_left l r

theorem padTo_take (l : List Nat) (c : Nat) : (padTo l c).take l.length = l :=
  take_len_append l _

theorem padTo_length (l : List Nat) (c : Nat) (h : l.length ≤ c) :
    (padTo l c).length = c := by
  simp [padTo]
  omega

theorem take_write (a : List Nat) (len : Nat) (t : List Nat) (h : len ≤ a.length) :
    (a.take len ++ t ++ a.drop (len + t.length)).take (len + t.length) = a.take len ++ t := by
  have h1 : (a.take len ++ t).length = len + t.length := by
    simp [List.length_take]
    omega
  rw [← h1, take_len_append]

theorem write_length (a : List Nat) (len : Nat) (t : List Nat) (h : len + t.length ≤ a.length) :
    (a.take len ++ t ++ a.drop (len + t.length)).length = a.length := by
  simp [List.length_take, List.length_drop]
  omega

/-! ### Heap-congruence lemmas -/

theorem setCbVal_allocs (H : Heap) (c v : Nat) : (setCbVal H c v).allocs = H.allocs := by
  unfold setCbVal
  cases H.cbs c <;> rfl

theorem setCbVal_nA (H : Heap) (c v : Nat) : (setCbVal H c v).nA = H.nA := by
  unfold setCbVal
  cases H.cbs c <;> rfl

theorem setCbVal_nC (H : Heap) (c v : Nat) : (setCbVal H c v).nC = H.nC := by
  unfold setCbVal
  cases H.cbs c <;> rfl

theorem setCbVal_cbs_ne (H : Heap) (c v c2 : Nat) (h : c2 ≠ c) :
    (setCbVal H c v).cbs c2 = H.cbs c2 := by
  unfold setCbVal
  cases H.cbs c
  · rfl
  · simp [upd_ne _ _ _ _ h]

theorem setCbVal_cbs_self (H : Heap) (c v : Nat) (cell : CbCell) (h : H.cbs c = some cell) :
    (setCbVal H c v).cbs c = some ⟨v, cell.place⟩ := by
  unfold setCbVal
  rw [h]
  simp [upd_self]

theorem freeCb_allocs (H : Heap) (c : Nat) : (freeCb H c).allocs = H.allocs := rfl

theorem freeCb_nA (H : Heap) (c : Nat) : (freeCb H c).nA = H.nA := rfl

theorem freeCb_nC (H : Heap) (c : Nat) : (freeCb H c).nC = H.nC := rfl

theorem freeCb_cbs_ne (H : Heap) (c c2 : Nat) (h : c2 ≠ c) :
    (freeCb H c).cbs c2 = H.cbs c2 := by
  simp [freeCb, upd_ne _ _ _ _ h]

theorem freeCb_cbs_self (H : Heap) (c : Nat) : (freeCb H c).cbs c = none := by
  simp [freeCb, upd_self]

theorem freeAlloc_allocs_ne (H : Heap) (aid i : Nat) (h : i ≠ aid) :
    (freeAlloc H aid).allocs i = H.allocs i := by
  simp [freeAlloc, upd_ne _ _ _ _ h]

theorem freeAlloc_allocs_self (H : Heap) (aid : Nat) :
    (freeAlloc H aid).allocs aid = none := by
  simp [freeAlloc, upd_self]

theorem freeAlloc_nA (H : Heap) (aid : Nat) : (freeAlloc H aid).nA = H.nA := rfl

theorem freeAlloc_nC (H : Heap) (aid : Nat) : (freeAlloc H aid).nC = H.nC := rfl

theorem freeAlloc_cbs_keep (H : Heap) (aid c : Nat) (cell : CbCell)
    (hcb : H.cbs c = some cell) (hpl : ∀ pa, cell.place = some pa → pa.1 ≠ aid) :
    (freeAlloc H aid).cbs c = H.cbs c := by
  simp only [freeAlloc]
  rw [hcb]
  cases hp : cell.place with
  | none => simp [hp]
  | some pa =>
    have := hpl pa hp
    simp [hp, this]

theorem freeAlloc_cbs_none (H : Heap) (aid c : Nat) (h : H.cbs c = none) :
    (freeAlloc H aid).cbs c = none := by
  simp only [freeAlloc]
  rw [h]

theorem freeAlloc_cbs_inline (H : Heap) (aid c : Nat) (cell : CbCell)
    (hcb : H.cbs c = some cell) (pa : Nat × Nat) (hp : cell.place = some pa)
    (ha : pa.1 = aid) : (freeAlloc H aid).cbs c = none := by
  simp only [freeAlloc]
  rw [hcb]
  simp [hp, ha]

theorem allocWrite_cbs (H : Heap) (aid off : Nat) (bytes : List Nat) :
    (allocWrite H aid off bytes).cbs = H.cbs := by
  unfold allocWrite
  cases H.allocs aid <;> rfl

theorem allocWrite_nA (H : Heap) (aid off : Nat) (bytes : List Nat) :
    (allocWrite H aid off bytes).nA = H.nA := by
  unfold allocWrite
  cases H.allocs aid <;> rfl

theorem allocWrite_nC (H : Heap) (aid off : Nat) (bytes : List Nat) :
    (allocWrite H aid off bytes).nC = H.nC := by
  unfold allocWrite
  cases H.allocs aid <;> rfl

theorem allocWrite_allocs_ne (H : Heap) (aid off : Nat) (bytes : List Nat) (i : Nat)
    (h : i ≠ aid) : (allocWrite H aid off bytes).allocs i = H.allocs i := by
  unfold allocWrite
  cases H.allocs aid
  · rfl
  · simp [upd_ne _ _ _ _ h]

theorem allocWrite_allocs_self (H : Heap) (aid off : Nat) (bytes : List Nat) (a : Alloc)
    (h : H.allocs aid = some a) :
    (allocWrite H aid off bytes).allocs aid =
      some ⟨a.data.take off ++ bytes ++ a.data.drop (off + bytes.length)⟩ := by
  unfold allocWrite
  rw [h]
  simp [upd_self]

/-! ### Congruence of observations under heap changes -/

theorem derefBytes_congr (H H2 : Heap) (h : Handle)
    (ha : ∀ aid, aidOf h = some aid → H2.allocs aid = H.allocs aid) :
    derefBytes H2 h = derefBytes H h := by
  cases h with
  | short d => rfl
  | lstatic b => rfl
  | lheap len aid cap cbp =>
    have := ha aid rfl
    simp [derefBytes, this]

theorem usablecapS_congr (H H2 : Heap) (aid cap : Nat) (cbp : Option Nat)
    (hc : ∀ c, cbp = some c → H2.cbs c = H.cbs c) :
    usablecapS H2 aid cap cbp = usablecapS H aid cap cbp := by
  cases cbp with
  | none => rfl
  | some c =>
    have := hc c rfl
    simp [usablecapS, this]

theorem wfL_congr (H H2 : Heap) (h : Handle)
    (ha : ∀ aid, aidOf h = some aid → H2.allocs aid = H.allocs aid)
    (hc : ∀ c, cbpOf h = some c → H2.cbs c = H.cbs c)
    (hna : H.nA ≤ H2.nA) (hnc : H.nC ≤ H2.nC) :
    wfL H h = true → wfL H2 h = true := by
  cases h with
  | short d => exact fun hw => hw
  | lstatic b => exact fun hw => hw
  | lheap len aid cap cbp =>
    have haa := ha aid rfl
    cases cbp with
    | none =>
      simp only [wfL, haa, Bool.and_eq_true, decide_eq_true_eq]
      intro ⟨⟨h1, h2⟩, _⟩
      exact ⟨⟨by omega, h2⟩, trivial⟩
    | some c =>
      have hcc := hc c rfl
      simp only [wfL, haa, hcc, Bool.and_eq_true, decide_eq_true_eq]
      intro ⟨⟨h1, h2⟩, h3, h4⟩
      exact ⟨⟨by omega, h2⟩, by omega, h4⟩

/-! ### Specification of the fresh-allocation constructors -/

theorem cbOffOf_eq (v : MVec) (mincap : Nat) :
    cbOffOf v mincap = alignUp8 (max v.data.length mincap) +
      ((v.cap - (alignUp8 (max v.data.length mincap) + 8)) / 8) * 8 := rfl

theorem cbOff_ge (v : MVec) (mincap : Nat) :
    alignUp8 (max v.data.length mincap) ≤ cbOffOf v mincap := by
  rw [cbOffOf_eq]
  omega

theorem cbOff_fit (v : MVec) (mincap : Nat) (h : cbFits v mincap = true) :
    cbOffOf v mincap + 8 ≤ v.cap := by
  have hc : alignUp8 (max v.data.length mincap) + 8 ≤ v.cap := by
    have := of_decide_eq_true h
    exact this
  rw [cbOffOf_eq]
  have hdm := Nat.div_mul_le_self (v.cap - (alignUp8 (max v.data.length mincap) + 8)) 8
  omega

theorem FreshSpec.handleEq {H din cap mincap r} (f : FreshSpec H din cap mincap r) :
    ∃ cbp, r.2 = Handle.lheap din.length H.nA cap cbp := by
  rcases f.cbCase with ⟨h, _⟩ | ⟨h, _⟩
  · exact ⟨none, h⟩
  · exact ⟨some H.nC, h⟩

theorem FreshSpec.uniq {H din cap mincap r} (f : FreshSpec H din cap mincap r) :
    uniqueish r.1 r.2 := by
  intro len aid cap2 c heq
  rcases f.cbCase with ⟨h, _⟩ | ⟨h, hcb, _⟩
  · rw [h] at heq
    exact absurd heq (by simp)
  · rw [h] at heq
    injection heq with h1 h2 h3 h4
    injection h4 with h5
    exact ⟨⟨3, some (H.nA, cbOffOf ⟨din, cap⟩ mincap)⟩, by rw [← h5]; exact hcb, by simp⟩

theorem innerFromVec_spec (H : Heap) (v : MVec) (mincap : Nat)
    (hlen : v.data.length ≤ v.cap) (hmin : mincap ≤ v.cap) (hpos : 0 < v.cap) :
    FreshSpec H v.data v.cap mincap (innerFromVec H v true mincap) := by
  have hm1 : v.data.length ≤ max v.data.length mincap := le_max_left _ _
  have hm2 : mincap ≤ max v.data.length mincap := le_max_right _ _
  have hmx : max v.data.length mincap ≤ alignUp8 (max v.data.length mincap) :=
    alignUp8_ge _
  have hpl := padTo_length v.data v.cap hlen
  by_cases hf : cbFits v mincap = true
  · have hoff1 : alignUp8 (max v.data.length mincap) ≤ cbOffOf v mincap := cbOff_ge v mincap
    have hoff2 : cbOffOf v mincap + 8 ≤ v.cap := cbOff_fit v mincap hf
    simp only [innerFromVec, hf, Bool.and_self, if_true, Bool.true_and]
    constructor
    · exact upd_self _ _ _
    · intro i hi
      exact upd_ne _ _ _ _ hi
    · intro c hc
      exact upd_ne _ _ _ _ hc
    · rfl
    · simp
    · simp only [derefBytes, upd_self]
      exact padTo_take v.data v.cap
    · simp only [wfL, upd_self]
      simp [USIZE_eq, hpl]
      all_goals omega
    · simp only [capacityH, usablecapS, upd_self]
      simp [Nat.le_min]
      all_goals omega
    · right
      exact ⟨rfl, upd_self _ _ _, rfl⟩
  · have hcap : max v.data.length mincap ≤ v.cap := by omega
    simp only [innerFromVec, hf, Bool.and_false, if_false, Bool.true_and, Bool.false_eq_true]
    constructor
    · exact upd_self _ _ _
    · intro i hi
      exact upd_ne _ _ _ _ hi
    · intro c _
      rfl
    · rfl
    · simp
    · simp only [derefBytes, upd_self]
      exact padTo_take v.data v.cap
    · simp only [wfL, upd_self]
      simp [hpl]
      all_goals omega
    · simp only [capacityH, usablecapS]
      exact hcap
    · left
      exact ⟨rfl, rfl, rfl⟩

theorem innerFromSlice_spec (H : Heap) (s : List Nat) (mincap : Nat) :
    FreshSpec H s (alignUp8 (max s.length mincap) + 8) mincap
      (innerFromSlice H s true mincap) := by
  have hm1 : s.length ≤ max s.length mincap := le_max_left _ _
  have hm2 : mincap ≤ max s.length mincap := le_max_right _ _
  have hm3 := alignUp8_ge (max s.length mincap)
  unfold innerFromSlice
  refine innerFromVec_spec H ⟨s, alignUp8 (max s.length mincap) + 8⟩ mincap ?_ ?_ ?_
  · show s.length ≤ alignUp8 (max s.length mincap) + 8
    omega
  · show mincap ≤ alignUp8 (max s.length mincap) + 8
    omega
  · show 0 < alignUp8 (max s.length mincap) + 8
    omega

theorem innerFromSlice_cb (H : Heap) (s : List Nat) (mincap : Nat) :
    (innerFromSlice H s true mincap).2 =
      Handle.lheap s.length H.nA (alignUp8 (max s.length mincap) + 8) (some H.nC) ∧
    (innerFromSlice H s true mincap).1.cbs H.nC =
      some ⟨3, some (H.nA, cbOffOf ⟨s, alignUp8 (max s.length mincap) + 8⟩ mincap)⟩ ∧
    (innerFromSlice H s true mincap).1.nC = H.nC + 1 := by
  have hsp := innerFromSlice_spec H s mincap
  rcases hsp.cbCase with ⟨h, hcb, _⟩ | h
  · exfalso
    have hfits : cbFits ⟨s, alignUp8 (max s.length mincap) + 8⟩ mincap = true := by
      simp [cbFits]
    unfold innerFromSlice innerFromVec at h
    simp only [hfits, Bool.and_self, if_true, Bool.true_and] at h
    exact absurd h (by simp)
  · exact h

/-! ### Working with well-formedness -/

theorem wf_lheap_elim (H : Heap) (len aid cap : Nat) (cbp : Option Nat)
    (hwf : wfL H (.lheap len aid cap cbp) = true) :
    aid < H.nA ∧
    (∃ a, H.allocs aid = some a ∧ a.data.length = cap ∧ 0 < cap ∧ len ≤ cap) ∧
    (∀ c, cbp = some c → c < H.nC ∧
      ∃ cell, H.cbs c = some cell ∧ 2 ≤ cell.val ∧ cell.val < USIZE ∧
        ((cell.place = none ∧ cell.val % 2 = 0) ∨
         (∃ off, cell.place = some (aid, off) ∧ cell.val % 2 = 1 ∧
           len ≤ off ∧ off + 8 ≤ cap))) := by
  cases ha : H.allocs aid with
  | none => simp [wfL, ha] at hwf
  | some a =>
    cases cbp with
    | none =>
      simp only [wfL, ha, Bool.and_eq_true, decide_eq_true_eq] at hwf
      obtain ⟨⟨h1, ⟨h2, h3⟩, h4⟩, -⟩ := hwf
      exact ⟨h1, ⟨a, rfl, h2, h3, h4⟩, fun c hc => by cases hc⟩
    | some c =>
      cases hcb : H.cbs c with
      | none => simp [wfL, ha, hcb] at hwf
      | some cell =>
        cases hp : cell.place with
        | none =>
          simp only [wfL, ha, hcb, hp, Bool.and_eq_true, decide_eq_true_eq] at hwf
          obtain ⟨⟨h1, ⟨h2, h3⟩, h4⟩, h5, ⟨h6, h7⟩, h8⟩ := hwf
          refine ⟨h1, ⟨a, rfl, h2, h3, h4⟩, fun c2 hc2 => ?_⟩
          cases hc2
          exact ⟨h5, cell, hcb, h6, h7, Or.inl ⟨hp, h8⟩⟩
        | some pa =>
          simp only [wfL, ha, hcb, hp, Bool.and_eq_true, decide_eq_true_eq] at hwf
          obtain ⟨⟨h1, ⟨h2, h3⟩, h4⟩, h5, ⟨h6, h7⟩, ⟨⟨h8, h9⟩, h10⟩, h11⟩ := hwf
          refine ⟨h1, ⟨a, rfl, h2, h3, h4⟩, fun c2 hc2 => ?_⟩
          cases hc2
          refine ⟨h5, cell, hcb, h6, h7, Or.inr ⟨pa.2, ?_, h8, h10, h11⟩⟩
          rw [hp, ← h9]

theorem wf_lheap_intro (H : Heap) (len aid cap : Nat) (cbp : Option Nat)
    (h1 : aid < H.nA)
    (h2 : ∃ a, H.allocs aid = some a ∧ a.data.length = cap ∧ 0 < cap ∧ len ≤ cap)
    (h3 : ∀ c, cbp = some c → c < H.nC ∧
      ∃ cell, H.cbs c = some cell ∧ 2 ≤ cell.val ∧ cell.val < USIZE ∧
        ((cell.place = none ∧ cell.val % 2 = 0) ∨
         (∃ off, cell.place = some (aid, off) ∧ cell.val % 2 = 1 ∧
           len ≤ off ∧ off + 8 ≤ cap))) :
    wfL H (.lheap len aid cap cbp) = true := by
  obtain ⟨a, ha, ha2, ha3, ha4⟩ := h2
  cases cbp with
  | none => simp [wfL, ha, h1, ha2, ha3, ha4]
  | some c =>
    obtain ⟨hc1, cell, hcb, hc2, hc3, hc4⟩ := h3 c rfl
    rcases hc4 with ⟨hp, hpar⟩ | ⟨off, hp, hpar, ho1, ho2⟩
    · simp [wfL, ha, hcb, hp, h1, ha2, ha3, ha4, hc1, hc2, hc3, hpar]
    · simp [wfL, ha, hcb, hp, h1, ha2, ha3, ha4, hc1, hc2, hc3, hpar, ho1, ho2]

theorem usable_le_cap (H : Heap) (aid cap : Nat) (cbp : Option Nat) :
    usablecapS H aid cap cbp ≤ cap := by
  cases cbp with
  | none => simp [usablecapS]
  | some c =>
    cases hcb : H.cbs c with
    | none => simp [usablecapS, hcb]
    | some cell =>
      cases hp : cell.place with
      | none => simp [usablecapS, hcb, hp]
      | some pa =>
        simp only [usablecapS, hcb, hp]
        by_cases hpa : pa.1 = aid
        · simp [hpa, min_le_right]
        · simp [hpa]

theorem deref_length (H : Heap) (h : Handle) (hwf : wfL H h = true) :
    (derefBytes H h).length = lenOf h := by
  cases h with
  | short d => rfl
  | lstatic b => rfl
  | lheap len aid cap cbp =>
    obtain ⟨-, ⟨a, ha, ha2, -, ha4⟩, -⟩ := wf_lheap_elim H len aid cap cbp hwf
    simp [derefBytes, ha, lenOf, List.length_take]
    omega

theorem uniqueish_congr (H H2 : Heap) (h : Handle)
    (hc : ∀ c, cbpOf h = some c → H2.cbs c = H.cbs c) :
    uniqueish H h → uniqueish H2 h := by
  intro hu len aid cap c heq
  obtain ⟨cell, hcb, hv⟩ := hu len aid cap c heq
  refine ⟨cell, ?_, hv⟩
  rw [hc c (by rw [heq]; rfl)]
  exact hcb

/-! ### Specification of `make_unique` -/

theorem makeUnique_spec (H : Heap) (h : Handle) (mincap : Nat)
    (hwf : wfL H h = true) (hl : isLong h = true) :
    wfL (makeUnique H h mincap true).1 (makeUnique H h mincap true).2 = true ∧
    derefBytes (makeUnique H h mincap true).1 (makeUnique H h mincap true).2 =
      derefBytes H h ∧
    uniqueish (makeUnique H h mincap true).1 (makeUnique H h mincap true).2 ∧
    (∃ aid cap cbp, (makeUnique H h mincap true).2 = .lheap (lenOf h) aid cap cbp) := by
  cases h with
  | short d => simp [isLong] at hl
  | lstatic b =>
    have fs := innerFromSlice_spec H b mincap
    obtain ⟨cbp, hh⟩ := fs.handleEq
    refine ⟨fs.wf, ?_, fs.uniq, ⟨H.nA, alignUp8 (max b.length mincap) + 8, cbp, ?_⟩⟩
    · exact fs.derefEq
    · show (innerFromSlice H b true mincap).2 = _
      rw [hh]
      rfl
  | lheap len aid cap cbp =>
    cases cbp with
    | none =>
      refine ⟨hwf, rfl, ?_, ⟨aid, cap, none, rfl⟩⟩
      intro len2 aid2 cap2 c heq
      simp only [makeUnique] at heq
      cases heq
    | some c =>
      obtain ⟨hna, ⟨a, ha, ha2, ha3, ha4⟩, hcbs⟩ :=
        wf_lheap_elim H len aid cap (some c) hwf
      obtain ⟨hc1, cell, hcb, hv2, hvU, hplace⟩ := hcbs c rfl
      by_cases hone : cell.val / 2 = 1
      · have hmu : makeUnique H (.lheap len aid cap (some c)) mincap true =
            (H, .lheap len aid cap (some c)) := by
          simp [makeUnique, hcb, hone]
        rw [hmu]
        refine ⟨hwf, rfl, ?_, ⟨aid, cap, some c, rfl⟩⟩
        intro len2 aid2 cap2 c2 heq
        injection heq with e1 e2 e3 e4
        injection e4 with e5
        exact ⟨cell, by rw [← e5]; exact hcb, by omega⟩
      · have hv4 : 4 ≤ cell.val := by omega
        have hmu : makeUnique H (.lheap len aid cap (some c)) mincap true =
            (dropLong (innerFromSlice H (derefBytes H (.lheap len aid cap (some c)))
                true mincap).1 aid (some c),
             (innerFromSlice H (derefBytes H (.lheap len aid cap (some c)))
                true mincap).2) := by
          simp [makeUnique, hcb, hone]
        rw [hmu]
        have fs := innerFromSlice_spec H (derefBytes H (.lheap len aid cap (some c))) mincap
        obtain ⟨cbp2, hh2⟩ := fs.handleEq
        have hcne : c ≠ H.nC := by omega
        have hcb1 : (innerFromSlice H (derefBytes H (.lheap len aid cap (some c)))
            true mincap).1.cbs c = some cell := by
          rw [fs.cbsOld c hcne]
          exact hcb
        have hdl : dropLong (innerFromSlice H (derefBytes H (.lheap len aid cap (some c)))
            true mincap).1 aid (some c) =
            setCbVal (innerFromSlice H (derefBytes H (.lheap len aid cap (some c)))
              true mincap).1 c ((cell.val + (USIZE - 2)) % USIZE) := by
          simp only [dropLong, hcb1]
          rw [if_pos (by omega)]
        rw [hdl]
        set r := innerFromSlice H (derefBytes H (.lheap len aid cap (some c))) true mincap
          with hr
        have hall : (setCbVal r.1 c ((cell.val + (USIZE - 2)) % USIZE)).allocs = r.1.allocs :=
          setCbVal_allocs _ _ _

        have hcbkeep : ∀ c2, cbpOf r.2 = some c2 →
            (setCbVal r.1 c ((cell.val + (USIZE - 2)) % USIZE)).cbs c2 = r.1.cbs c2 := by
          intro c2 hc2
          apply setCbVal_cbs_ne
          rcases fs.cbCase with ⟨he, -, -⟩ | ⟨he, -, hnc⟩
          · rw [he] at hc2
            simp [cbpOf] at hc2
          · rw [he] at hc2
            simp only [cbpOf] at hc2
            injection hc2 with h5
            omega
        refine ⟨?_, ?_, ?_, ?_⟩
        · refine wfL_congr r.1 _ r.2 (fun aid2 _ => by rw [hall]) hcbkeep
            (by rw [setCbVal_nA]) (by rw [setCbVal_nC]) fs.wf
        · rw [derefBytes_congr r.1 _ r.2 (fun aid2 _ => by rw [hall])]
          exact fs.derefEq
        · exact uniqueish_congr r.1 _ r.2 hcbkeep fs.uniq
        · have hlen : (derefBytes H (.lheap len aid cap (some c))).length = len :=
            deref_length H _ hwf
          refine ⟨H.nA,
            alignUp8 (max (derefBytes H (.lheap len aid cap (some c))).length mincap) + 8,
            cbp2, ?_⟩
          show r.2 = _
          rw [hh2, hlen]
          rfl

/-! ### Frame lemmas for `dropLong` -/

theorem dropLong_allocs_ne (Hx : Heap) (aid : Nat) (cbp : Option Nat) (i : Nat)
    (hi : i ≠ aid) : (dropLong Hx aid cbp).allocs i = Hx.allocs i := by
  cases cbp with
  | none =>
    simp only [dropLong]
    exact freeAlloc_allocs_ne Hx aid i hi
  | some c =>
    cases hcb : Hx.cbs c with
    | none => simp [dropLong, hcb]
    | some cell =>
      simp only [dropLong, hcb]
      by_cases h3 : 3 < cell.val
      · rw [if_pos h3, setCbVal_allocs]
      · rw [if_neg h3]
        by_cases he : cell.val % 2 = 0
        · rw [if_pos he, freeAlloc_allocs_ne _ _ _ hi, freeCb_allocs, setCbVal_allocs]
        · rw [if_neg he, freeAlloc_allocs_ne _ _ _ hi, setCbVal_allocs]

theorem dropLong_nA (Hx : Heap) (aid : Nat) (cbp : Option Nat) :
    (dropLong Hx aid cbp).nA = Hx.nA := by
  cases cbp with
  | none => simp [dropLong, freeAlloc]
  | some c =>
    cases hcb : Hx.cbs c with
    | none => simp [dropLong, hcb]
    | some cell =>
      simp only [dropLong, hcb]
      by_cases h3 : 3 < cell.val
      · rw [if_pos h3, setCbVal_nA]
      · rw [if_neg h3]
        by_cases he : cell.val % 2 = 0
        · rw [if_pos he, freeAlloc_nA, freeCb_nA, setCbVal_nA]
        · rw [if_neg he, freeAlloc_nA, setCbVal_nA]

theorem dropLong_nC (Hx : Heap) (aid : Nat) (cbp : Option Nat) :
    (dropLong Hx aid cbp).nC = Hx.nC := by
  cases cbp with
  | none => simp [dropLong, freeAlloc]
  | some c =>
    cases hcb : Hx.cbs c with
    | none => simp [dropLong, hcb]
    | some cell =>
      simp only [dropLong, hcb]
      by_cases h3 : 3 < cell.val
      · rw [if_pos h3, setCbVal_nC]
      · rw [if_neg h3]
        by_cases he : cell.val % 2 = 0
        · rw [if_pos he, freeAlloc_nC, freeCb_nC, setCbVal_nC]
        · rw [if_neg he, freeAlloc_nC, setCbVal_nC]

theorem dropLong_cbs_keep (Hx : Heap) (aid : Nat) (cbp : Option Nat) (c2 : Nat)
    (cell2 : CbCell) (hcb2 : Hx.cbs c2 = some cell2)
    (hne : ∀ c, cbp = some c → c2 ≠ c)
    (hpl : ∀ pa, cell2.place = some pa → pa.1 ≠ aid) :
    (dropLong Hx aid cbp).cbs c2 = Hx.cbs c2 := by
  cases cbp with
  | none =>
    simp only [dropLong]
    exact freeAlloc_cbs_keep Hx aid c2 cell2 hcb2 hpl
  | some c =>
    have hnec : c2 ≠ c := hne c rfl
    cases hcb : Hx.cbs c with
    | none => simp [dropLong, hcb]
    | some cell =>
      simp only [dropLong, hcb]
      by_cases h3 : 3 < cell.val
      · rw [if_pos h3, setCbVal_cbs_ne _ _ _ _ hnec]
      · rw [if_neg h3]
        have hkeep1 : (setCbVal Hx c ((cell.val + (USIZE - 2)) % USIZE)).cbs c2 = some cell2 := by
          rw [setCbVal_cbs_ne _ _ _ _ hnec]
          exact hcb2
        by_cases he : cell.val % 2 = 0
        · rw [if_pos he]
          have hkeep2 : (freeCb (setCbVal Hx c ((cell.val + (USIZE - 2)) % USIZE)) c).cbs c2 =
              some cell2 := by
            rw [freeCb_cbs_ne _ _ _ hnec]
            exact hkeep1
          rw [freeAlloc_cbs_keep _ aid c2 cell2 hkeep2 hpl, hkeep2, hcb2]
        · rw [if_neg he]
          rw [freeAlloc_cbs_keep _ aid c2 cell2 hkeep1 hpl, hkeep1, hcb2]

/-! ### Specification of `InnerLong::reserve` -/

theorem innerReserve_spec (H : Heap) (len aid cap : Nat) (cbp : Option Nat) (mincap : Nat)
    (hwf : wfL H (.lheap len aid cap cbp) = true)
    (hu : uniqueish H (.lheap len aid cap cbp)) :
    wfL (innerReserve H (.lheap len aid cap cbp) mincap true).1
      (innerReserve H (.lheap len aid cap cbp) mincap true).2 = true ∧
    derefBytes (innerReserve H (.lheap len aid cap cbp) mincap true).1
      (innerReserve H (.lheap len aid cap cbp) mincap true).2 =
      derefBytes H (.lheap len aid cap cbp) ∧
    mincap ≤ capacityH (innerReserve H (.lheap len aid cap cbp) mincap true).1
      (innerReserve H (.lheap len aid cap cbp) mincap true).2 ∧
    (∃ aid2 cap2 cbp2,
      (innerReserve H (.lheap len aid cap cbp) mincap true).2 = .lheap len aid2 cap2 cbp2) ∧
    uniqueish (innerReserve H (.lheap len aid cap cbp) mincap true).1
      (innerReserve H (.lheap len aid cap cbp) mincap true).2 := by
  obtain ⟨hna, ⟨a, ha, ha2, ha3, ha4⟩, hcbs⟩ := wf_lheap_elim H len aid cap cbp hwf
  by_cases h1 : mincap ≤ cap
  · by_cases h2 : mincap ≤ usablecapS H aid cap cbp
    · have hr : innerReserve H (.lheap len aid cap cbp) mincap true =
          (H, .lheap len aid cap cbp) := by
        simp [innerReserve, h1, h2]
      rw [hr]
      exact ⟨hwf, rfl, h2, ⟨aid, cap, cbp, rfl⟩, hu⟩
    · have hr : innerReserve H (.lheap len aid cap cbp) mincap true =
          (H, .lheap len aid cap none) := by
        simp [innerReserve, h1, h2]
      rw [hr]
      refine ⟨?_, ?_, ?_, ⟨aid, cap, none, rfl⟩, ?_⟩
      · exact wf_lheap_intro H len aid cap none hna ⟨a, ha, ha2, ha3, ha4⟩
          (fun c hc => by cases hc)
      · rfl
      · show mincap ≤ usablecapS H aid cap none
        simpa [usablecapS] using h1
      · intro len2 aid2 cap2 c2 heq
        cases heq
  · have hr : innerReserve H (.lheap len aid cap cbp) mincap true =
        (dropLong (innerFromSlice H (derefBytes H (.lheap len aid cap cbp)) true
            (max mincap (cap * 2))).1 aid cbp,
         (innerFromSlice H (derefBytes H (.lheap len aid cap cbp)) true
            (max mincap (cap * 2))).2) := by
      simp [innerReserve, h1]
    rw [hr]
    set s := derefBytes H (.lheap len aid cap cbp) with hs
    set m2 := max mincap (cap * 2) with hm2
    have fs := innerFromSlice_spec H s m2
    obtain ⟨hh2, hcbN, hnC2⟩ := innerFromSlice_cb H s m2
    set r := innerFromSlice H s true m2 with hrr
    have hslen : s.length = len := deref_length H _ hwf
    have haidne : aid ≠ H.nA := by omega
    -- the fresh handle refers to alloc H.nA and cb H.nC, both untouched by dropLong
    have hcbne : ∀ c, cbp = some c → H.nC ≠ c := by
      intro c hc
      obtain ⟨hc1, -⟩ := hcbs c hc
      omega
    have hplne : ∀ pa, (⟨3, some (H.nA, cbOffOf ⟨s, alignUp8 (max s.length m2) + 8⟩ m2)⟩ :
        CbCell).place = some pa → pa.1 ≠ aid := by
      intro pa hpa
      injection hpa with h5
      rw [← h5]
      simp
      omega
    have hallocs : ∀ a2, aidOf r.2 = some a2 →
        (dropLong r.1 aid cbp).allocs a2 = r.1.allocs a2 := by
      intro a2 ha2eq
      rw [hh2] at ha2eq
      simp only [aidOf] at ha2eq
      injection ha2eq with h5
      rw [← h5]
      exact dropLong_allocs_ne r.1 aid cbp H.nA (by omega)
    have hcbs2 : ∀ c2, cbpOf r.2 = some c2 →
        (dropLong r.1 aid cbp).cbs c2 = r.1.cbs c2 := by
      intro c2 hc2
      rw [hh2] at hc2
      simp only [cbpOf] at hc2
      injection hc2 with h5
      rw [← h5]
      exact dropLong_cbs_keep r.1 aid cbp H.nC _ hcbN hcbne hplne
    refine ⟨?_, ?_, ?_, ?_, ?_⟩
    · exact wfL_congr r.1 _ r.2 hallocs hcbs2
        (by rw [dropLong_nA]) (by rw [dropLong_nC]) fs.wf
    · rw [derefBytes_congr r.1 _ r.2 hallocs]
      exact fs.derefEq
    · have hcap := fs.capGe
      have hcap2 : capacityH (dropLong r.1 aid cbp) r.2 = capacityH r.1 r.2 := by
        rw [hh2]
        show usablecapS _ H.nA _ (some H.nC) = usablecapS _ H.nA _ (some H.nC)
        refine usablecapS_congr r.1 _ H.nA _ (some H.nC) ?_
        intro c hc
        injection hc with h5
        rw [← h5]
        exact dropLong_cbs_keep r.1 aid cbp H.nC _ hcbN hcbne hplne
      rw [hcap2]
      have : mincap ≤ m2 := le_max_left _ _
      have : m2 ≤ max s.length m2 := le_max_right _ _
      omega
    · refine ⟨H.nA, alignUp8 (max s.length m2) + 8, some H.nC, ?_⟩
      rw [hh2, hslen]
    · exact uniqueish_congr r.1 _ r.2 hcbs2 fs.uniq

/-! ### Combined `make_unique` + `reserve` (the Long path of the
growth/uniqueness algorithm) -/

theorem muir_spec (H : Heap) (h : Handle) (mincap : Nat)
    (hwf : wfL H h = true) (hl : isLong h = true) :
    wfL (innerReserve (makeUnique H h mincap true).1 (makeUnique H h mincap true).2
        mincap true).1
      (innerReserve (makeUnique H h mincap true).1 (makeUnique H h mincap true).2
        mincap true).2 = true ∧
    derefBytes (innerReserve (makeUnique H h mincap true).1 (makeUnique H h mincap true).2
        mincap true).1
      (innerReserve (makeUnique H h mincap true).1 (makeUnique H h mincap true).2
        mincap true).2 = derefBytes H h ∧
    mincap ≤ capacityH
      (innerReserve (makeUnique H h mincap true).1 (makeUnique H h mincap true).2
        mincap true).1
      (innerReserve (makeUnique H h mincap true).1 (makeUnique H h mincap true).2
        mincap true).2 ∧
    (∃ aid2 cap2 cbp2,
      (innerReserve (makeUnique H h mincap true).1 (makeUnique H h mincap true).2
        mincap true).2 = .lheap (lenOf h) aid2 cap2 cbp2) := by
  obtain ⟨hw1, hd1, hu1, aidm, capm, cbpm, hm⟩ := makeUnique_spec H h mincap hwf hl
  rw [hm] at hw1 hu1 hd1 ⊢
  obtain ⟨hw2, hd2, hc2, ⟨aid2, cap2, cbp2, hr2⟩, hu2⟩ :=
    innerReserve_spec (makeUnique H h mincap true).1 (lenOf h) aidm capm cbpm mincap hw1 hu1
  refine ⟨hw2, ?_, hc2, ⟨aid2, cap2, cbp2, hr2⟩⟩
  rw [hd2, hd1]

/-! ### Specification of `reserve_extra_internal` -/

theorem rei_spec (H : Heap) (h : Handle) (extracap : Nat) (hwf : wfL H h = true) :
    ((reserveExtraInternal H h extracap).2.2 = true →
      reserveExtraInternal H h extracap = (H, h, true) ∧
      ∃ d, h = .short d ∧ d.length + extracap ≤ SHORTLEN) ∧
    ((reserveExtraInternal H h extracap).2.2 = false →
      wfL (reserveExtraInternal H h extracap).1 (reserveExtraInternal H h extracap).2.1 = true ∧
      derefBytes (reserveExtraInternal H h extracap).1
        (reserveExtraInternal H h extracap).2.1 = derefBytes H h ∧
      (∃ aid2 cap2 cbp2, (reserveExtraInternal H h extracap).2.1 =
        .lheap (lenOf h) aid2 cap2 cbp2) ∧
      lenOf h + extracap ≤ capacityH (reserveExtraInternal H h extracap).1
        (reserveExtraInternal H h extracap).2.1) := by
  cases h with
  | short d =>
    by_cases hfit : SHORTLEN < d.length + extracap
    · have hr : reserveExtraInternal H (.short d) extracap =
          ((innerFromSlice H d true (max (d.length + extracap) (SHORTLEN * 2))).1,
           (innerFromSlice H d true (max (d.length + extracap) (SHORTLEN * 2))).2,
           false) := by
        simp [reserveExtraInternal, hfit]
      rw [hr]
      have fs := innerFromSlice_spec H d (max (d.length + extracap) (SHORTLEN * 2))
      obtain ⟨cbp2, hh2⟩ := fs.handleEq
      refine ⟨fun hc => absurd hc (by simp), fun _ => ⟨fs.wf, fs.derefEq, ?_, ?_⟩⟩
      · exact ⟨H.nA, _, cbp2, hh2⟩
      · have := fs.capGe
        have h1 : d.length + extracap ≤ max (d.length + extracap) (SHORTLEN * 2) :=
          le_max_left _ _
        have h2 : max (d.length + extracap) (SHORTLEN * 2) ≤
            max d.length (max (d.length + extracap) (SHORTLEN * 2)) := le_max_right _ _
        show d.length + extracap ≤ capacityH
            (innerFromSlice H d true (max (d.length + extracap) (SHORTLEN * 2))).1
            (innerFromSlice H d true (max (d.length + extracap) (SHORTLEN * 2))).2
        omega
    · have hr : reserveExtraInternal H (.short d) extracap = (H, .short d, true) := by
        simp [reserveExtraInternal, hfit]
      rw [hr]
      exact ⟨fun _ => ⟨rfl, d, rfl, by omega⟩, fun hc => absurd hc (by simp)⟩
  | lstatic b =>
    have hr : reserveExtraInternal H (.lstatic b) extracap =
        ((innerReserve (makeUnique H (.lstatic b) (b.length + extracap) true).1
            (makeUnique H (.lstatic b) (b.length + extracap) true).2
            (b.length + extracap) true).1,
         (innerReserve (makeUnique H (.lstatic b) (b.length + extracap) true).1
            (makeUnique H (.lstatic b) (b.length + extracap) true).2
            (b.length + extracap) true).2,
         false) := by
      simp [reserveExtraInternal]
    rw [hr]
    obtain ⟨hw, hd, hc, hsh⟩ := muir_spec H (.lstatic b) (b.length + extracap) hwf rfl
    exact ⟨fun hc2 => absurd hc2 (by simp), fun _ => ⟨hw, hd, hsh, hc⟩⟩
  | lheap len aid cap cbp =>
    have hr : reserveExtraInternal H (.lheap len aid cap cbp) extracap =
        ((innerReserve (makeUnique H (.lheap len aid cap cbp) (len + extracap) true).1
            (makeUnique H (.lheap len aid cap cbp) (len + extracap) true).2
            (len + extracap) true).1,
         (innerReserve (makeUnique H (.lheap len aid cap cbp) (len + extracap) true).1
            (makeUnique H (.lheap len aid cap cbp) (len + extracap) true).2
            (len + extracap) true).2,
         false) := by
      simp [reserveExtraInternal]
    rw [hr]
    obtain ⟨hw, hd, hc, hsh⟩ := muir_spec H (.lheap len aid cap cbp) (len + extracap) hwf rfl
    exact ⟨fun hc2 => absurd hc2 (by simp), fun _ => ⟨hw, hd, hsh, hc⟩⟩

/-! ### Claim C9: `reserve` -/

/-- C9: for every well-formed MAByteString `s` and every `n`, after
`s.reserve(n)` the reported capacity is at least `n` (this holds
unconditionally, in particular in the case the claim carves out where
`n` fits the short-mode inline capacity and `s` stays short, since a
short buffer reports capacity `SHORTLEN ≥ n`), and the dereferenced
byte contents of `s` are unchanged. -/
theorem c9_reserve (H : Heap) (h : Handle) (n : Nat) (hwf : wfL H h = true) :
    n ≤ capacityH (reserveH H h n).1 (reserveH H h n).2 ∧
    derefBytes (reserveH H h n).1 (reserveH H h n).2 = derefBytes H h := by
  cases h with
  | short d =>
    by_cases hn : SHORTLEN < n
    · have hr : reserveH H (.short d) n =
          innerFromSlice H d true (max n (SHORTLEN * 2)) := by
        simp [reserveH, hn]
      rw [hr]
      have fs := innerFromSlice_spec H d (max n (SHORTLEN * 2))
      have h1 : n ≤ max n (SHORTLEN * 2) := le_max_left _ _
      have h2 : max n (SHORTLEN * 2) ≤ max d.length (max n (SHORTLEN * 2)) := le_max_right _ _
      have h3 := fs.capGe
      exact ⟨by omega, fs.derefEq⟩
    · have hr : reserveH H (.short d) n = (H, .short d) := by
        simp [reserveH, hn]
      rw [hr]
      refine ⟨?_, rfl⟩
      show n ≤ SHORTLEN
      omega
  | lstatic b =>
    have hr : reserveH H (.lstatic b) n =
        ((innerReserve (makeUnique H (.lstatic b) n true).1
            (makeUnique H (.lstatic b) n true).2 n true).1,
         (innerReserve (makeUnique H (.lstatic b) n true).1
            (makeUnique H (.lstatic b) n true).2 n true).2) := by
      simp [reserveH]
    rw [hr]
    obtain ⟨hw, hd, hc, hsh⟩ := muir_spec H (.lstatic b) n hwf rfl
    exact ⟨hc, hd⟩
  | lheap len aid cap cbp =>
    have hr : reserveH H (.lheap len aid cap cbp) n =
        ((innerReserve (makeUnique H (.lheap len aid cap cbp) n true).1
            (makeUnique H (.lheap len aid cap cbp) n true).2 n true).1,
         (innerReserve (makeUnique H (.lheap len aid cap cbp) n true).1
            (makeUnique H (.lheap len aid cap cbp) n true).2 n true).2) := by
      simp [reserveH]
    rw [hr]
    obtain ⟨hw, hd, hc, hsh⟩ := muir_spec H (.lheap len aid cap cbp) n hwf rfl
    exact ⟨hc, hd⟩

/-- Witness for C9 at a concrete input: a short buffer holding 3 bytes,
reserving 40 bytes (which forces promotion to Long). -/
theorem c9_reserve_witness :
    wfL H0 (Handle.short [1, 2, 3]) = true ∧
    (40 ≤ capacityH (reserveH H0 (Handle.short [1, 2, 3]) 40).1
        (reserveH H0 (Handle.short [1, 2, 3]) 40).2 ∧
     derefBytes (reserveH H0 (Handle.short [1, 2, 3]) 40).1
        (reserveH H0 (Handle.short [1, 2, 3]) 40).2 =
       derefBytes H0 (Handle.short [1, 2, 3])) :=
  ⟨by decide, c9_reserve H0 (Handle.short [1, 2, 3]) 40 (by decide)⟩

/-! ### Claim C3: `+=` (AddAssign) -/

/-- C3: for every well-formed MAByteString `s` and byte slice `t`, after
`s += t` the dereferenced contents of `s` equal the old contents
followed by `t`; if `s` was Short and the new total length still fits
the inline capacity SHORTLEN it stays in short mode, otherwise (for a
Short `s` that no longer fits) it is promoted to Long mode with
(usable) capacity at least the new length. -/
theorem c3_add_assign (H : Heap) (h : Handle) (t : List Nat) (hwf : wfL H h = true) :
    derefBytes (addAssignH H h t).1 (addAssignH H h t).2 = derefBytes H h ++ t ∧
    (∀ d, h = .short d → d.length + t.length ≤ SHORTLEN →
      addAssignH H h t = (H, .short (d ++ t))) ∧
    (∀ d, h = .short d → SHORTLEN < d.length + t.length →
      isLong (addAssignH H h t).2 = true ∧
      d.length + t.length ≤ capacityH (addAssignH H h t).1 (addAssignH H h t).2) := by
  obtain ⟨part1, part2⟩ := rei_spec H h t.length hwf
  rcases hre : reserveExtraInternal H h t.length with ⟨H1, h1, flag⟩
  rw [hre] at part1 part2
  cases flag with
  | true =>
    obtain ⟨heq, d, hd, hfit⟩ := part1 rfl
    rw [heq] at hre
    subst hd
    have hadd : addAssignH H (.short d) t = (H, .short (d ++ t)) := by
      simp [addAssignH, hre]
    rw [hadd]
    refine ⟨rfl, fun d2 hd2 _ => ?_, fun d2 hd2 hbig => ?_⟩
    · injection hd2 with hd3
      rw [hd3]
    · injection hd2 with hd3
      rw [← hd3] at hbig
      omega
  | false =>
    obtain ⟨hw1, hd1, ⟨aid2, cap2, cbp2, hsh⟩, hcap⟩ := part2 rfl
    subst hsh
    have hcap3 : lenOf h + t.length ≤ usablecapS H1 aid2 cap2 cbp2 := hcap
    have hd2 : derefBytes H1 (.lheap (lenOf h) aid2 cap2 cbp2) = derefBytes H h := hd1
    have hadd : addAssignH H h t =
        (allocWrite H1 aid2 (lenOf h) t,
         .lheap (lenOf h + t.length) aid2 cap2 cbp2) := by
      simp [addAssignH, hre]
    rw [hadd]
    obtain ⟨hna, ⟨a, ha, ha2, ha3, ha4⟩, hcbs⟩ :=
      wf_lheap_elim H1 (lenOf h) aid2 cap2 cbp2 hw1
    have hucap : usablecapS H1 aid2 cap2 cbp2 ≤ cap2 := usable_le_cap H1 aid2 cap2 cbp2
    have hcap2 : lenOf h + t.length ≤ cap2 := by omega
    have hwrite := allocWrite_allocs_self H1 aid2 (lenOf h) t a ha
    have hder : derefBytes (allocWrite H1 aid2 (lenOf h) t)
        (.lheap (lenOf h + t.length) aid2 cap2 cbp2) = a.data.take (lenOf h) ++ t := by
      simp only [derefBytes, hwrite]
      exact take_write a.data (lenOf h) t (by omega)
    have hder1 : derefBytes H1 (.lheap (lenOf h) aid2 cap2 cbp2) = a.data.take (lenOf h) := by
      simp [derefBytes, ha]
    refine ⟨?_, fun d hd hroom => ?_, fun d hd hbig => ?_⟩
    · rw [hder, ← hd2, hder1]
    · exfalso
      subst hd
      simp only [reserveExtraInternal, if_neg (by omega : ¬SHORTLEN < d.length + t.length)]
        at hre
      injection hre with hf1 hf2
      injection hf2 with hf2 hf3
      cases hf3
    · refine ⟨rfl, ?_⟩
      have hcapW : capacityH (allocWrite H1 aid2 (lenOf h) t)
          (.lheap (lenOf h + t.length) aid2 cap2 cbp2) = usablecapS H1 aid2 cap2 cbp2 := by
        show usablecapS (allocWrite H1 aid2 (lenOf h) t) aid2 cap2 cbp2 = _
        refine usablecapS_congr H1 _ aid2 cap2 cbp2 ?_
        intro c hc
        rw [allocWrite_cbs]
      rw [hcapW]
      have hlen : lenOf h = d.length := by rw [hd]; rfl
      omega

/-- Witness for C3 at a concrete input: a short 4-byte buffer gaining 3
bytes (stays short), applied through the theorem. -/
theorem c3_add_assign_witness :
    wfL H0 (Handle.short [116, 101, 115, 116]) = true ∧
    (derefBytes (addAssignH H0 (Handle.short [116, 101, 115, 116]) [102, 111, 111]).1
        (addAssignH H0 (Handle.short [116, 101, 115, 116]) [102, 111, 111]).2 =
      derefBytes H0 (Handle.short [116, 101, 115, 116]) ++ [102, 111, 111] ∧
     (∀ d, Handle.short [116, 101, 115, 116] = .short d →
        d.length + 3 ≤ SHORTLEN →
        addAssignH H0 (Handle.short [116, 101, 115, 116]) [102, 111, 111] =
          (H0, .short (d ++ [102, 111, 111]))) ∧
     (∀ d, Handle.short [116, 101, 115, 116] = .short d →
        SHORTLEN < d.length + 3 →
        isLong (addAssignH H0 (Handle.short [116, 101, 115, 116]) [102, 111, 111]).2 = true ∧
        d.length + 3 ≤
          capacityH (addAssignH H0 (Handle.short [116, 101, 115, 116]) [102, 111, 111]).1
            (addAssignH H0 (Handle.short [116, 101, 115, 116]) [102, 111, 111]).2)) :=
  ⟨by decide, c3_add_assign H0 (Handle.short [116, 101, 115, 116]) [102, 111, 111] (by decide)⟩

/-! ### Claim C1: construction round-trip -/

/-- C1: for every byte sequence `s`, constructing a buffer from `s` via
`MAByteString::from_slice` (or via `from_static` for a static
reference) and converting it back with `into_vec` yields exactly `s`. -/
theorem c1_roundtrip (H : Heap) (s : List Nat) :
    (intoVec (fromSlice H s).1 (fromSlice H s).2).2 = s ∧
    (intoVec H (fromStatic s)).2 = s := by
  by_cases hs : s.length ≤ SHORTLEN
  · constructor
    · simp [fromSlice, hs, intoVec]
    · simp [fromStatic, hs, intoVec]
  · obtain ⟨hh2, hcbN, -⟩ := innerFromSlice_cb H s 0
    have fs := innerFromSlice_spec H s 0
    have hder0 := fs.derefEq
    have hder := hder0
    rw [hh2] at hder
    rw [Nat.max_zero] at hh2 hcbN hder
    constructor
    · have hfs : fromSlice H s = innerFromSlice H s true 0 := by simp [fromSlice, hs]
      rw [hfs]
      rw [hh2]
      have hmu : makeUnique (innerFromSlice H s true 0).1
          (Handle.lheap s.length H.nA (alignUp8 s.length + 8) (some H.nC)) 0 true =
          ((innerFromSlice H s true 0).1,
           Handle.lheap s.length H.nA (alignUp8 s.length + 8) (some H.nC)) := by
        simp [makeUnique, hcbN]
      have hiv : intoVec (innerFromSlice H s true 0).1
          (Handle.lheap s.length H.nA (alignUp8 s.length + 8) (some H.nC)) =
          ((innerFromSlice H s true 0).1,
           derefBytes (innerFromSlice H s true 0).1
             (Handle.lheap s.length H.nA (alignUp8 s.length + 8) (some H.nC))) := by
        simp [intoVec, hmu]
      rw [hiv]
      exact hder
    · have hst : fromStatic s = .lstatic s := by simp [fromStatic, hs]
      rw [hst]
      have hiv : intoVec H (.lstatic s) =
          ((innerFromSlice H s true 0).1,
           derefBytes (innerFromSlice H s true 0).1 (innerFromSlice H s true 0).2) := by
        simp [intoVec, makeUnique]
      rw [hiv]
      exact hder0

/-! ### Claim C10: `clear` on a static buffer -/

/-- C10: for every static-mode MAByteString (Long mode with capacity 0),
`clear()` resets it to an empty short-mode buffer, discarding the static
pointer: the heap is untouched, the result is the empty Short value,
its contents are empty, its mode is "short" and its capacity is the
inline capacity. -/
theorem c10_clear_static (H : Heap) (b : List Nat) :
    clearH H (.lstatic b) = (H, .short []) ∧
    derefBytes (clearH H (.lstatic b)).1 (clearH H (.lstatic b)).2 = [] ∧
    getModeH (clearH H (.lstatic b)).1 (clearH H (.lstatic b)).2 = "short" ∧
    capacityH (clearH H (.lstatic b)).1 (clearH H (.lstatic b)).2 = SHORTLEN :=
  ⟨rfl, rfl, rfl, rfl⟩

/-! ### Claim C5: `clear` -/

/-- C5: for every well-formed MAByteString that is uniquely owned
(short, or Long with null control-block pointer), or shared but whose
control block count reads 1, `clear()` resets the contents to empty
while leaving the heap, the mode and the capacity unchanged; for every
MAByteString whose control block count reads greater than 1, `clear()`
resets it to an empty short-mode value and does not modify the bytes
observable through any other handle. -/
theorem c5_clear (H : Heap) (h : Handle) (hwf : wfL H h = true) :
    (((∃ d, h = .short d) ∨
      (∃ len aid cap, h = .lheap len aid cap none) ∨
      (∃ len aid cap c cell, h = .lheap len aid cap (some c) ∧ H.cbs c = some cell ∧
        cell.val / 2 = 1)) →
      (clearH H h).1 = H ∧
      derefBytes (clearH H h).1 (clearH H h).2 = [] ∧
      getModeH (clearH H h).1 (clearH H h).2 = getModeH H h ∧
      capacityH (clearH H h).1 (clearH H h).2 = capacityH H h) ∧
    (∀ len aid cap c cell, h = .lheap len aid cap (some c) → H.cbs c = some cell →
      2 ≤ cell.val / 2 →
      (clearH H h).2 = .short [] ∧
      ∀ x, derefBytes (clearH H h).1 x = derefBytes H x) := by
  constructor
  · rintro (⟨d, rfl⟩ | ⟨len, aid, cap, rfl⟩ | ⟨len, aid, cap, c, cell, rfl, hcb, hone⟩)
    · exact ⟨rfl, rfl, rfl, rfl⟩
    · refine ⟨rfl, ?_, rfl, rfl⟩
      show derefBytes H (Handle.lheap 0 aid cap none) = []
      simp only [derefBytes]
      cases H.allocs aid <;> simp
    · have hcl : clearH H (.lheap len aid cap (some c)) =
          (H, .lheap 0 aid cap (some c)) := by
        simp [clearH, hcb, hone]
      rw [hcl]
      refine ⟨rfl, ?_, rfl, rfl⟩
      show derefBytes H (Handle.lheap 0 aid cap (some c)) = []
      simp only [derefBytes]
      cases H.allocs aid <;> simp
  · intro len aid cap c cell heq hcb htwo
    subst heq
    obtain ⟨hna, ⟨a, ha, ha2, ha3, ha4⟩, hcbs⟩ := wf_lheap_elim H len aid cap (some c) hwf
    obtain ⟨hc1, cell2, hcb2, hv2, hvU, hplace⟩ := hcbs c rfl
    rw [hcb] at hcb2
    injection hcb2 with hcell
    subst hcell
    have hv4 : 4 ≤ cell.val := by omega
    have hone : ¬(cell.val / 2 = 1) := by omega
    have hcl : clearH H (.lheap len aid cap (some c)) =
        (dropLong H aid (some c), .short []) := by
      simp [clearH, hcb, hone]
    rw [hcl]
    refine ⟨rfl, fun x => ?_⟩
    have hdl : dropLong H aid (some c) =
        setCbVal H c ((cell.val + (USIZE - 2)) % USIZE) := by
      simp only [dropLong, hcb]
      rw [if_pos (by omega)]
    rw [hdl]
    exact derefBytes_congr H _ x (fun aid2 _ => by rw [setCbVal_allocs])

/-- Witness for C5 at a concrete input: clearing a short buffer holding
one byte preserves mode and capacity. -/
theorem c5_clear_witness :
    wfL H0 (Handle.short [7]) = true ∧
    ((clearH H0 (Handle.short [7])).1 = H0 ∧
     derefBytes (clearH H0 (Handle.short [7])).1 (clearH H0 (Handle.short [7])).2 = [] ∧
     getModeH (clearH H0 (Handle.short [7])).1 (clearH H0 (Handle.short [7])).2 =
       getModeH H0 (Handle.short [7]) ∧
     capacityH (clearH H0 (Handle.short [7])).1 (clearH H0 (Handle.short [7])).2 =
       capacityH H0 (Handle.short [7])) :=
  ⟨by decide, (c5_clear H0 (Handle.short [7]) (by decide)).1 (Or.inl ⟨[7], rfl⟩)⟩

/-! ### Claim C7: usable capacity -/

/-- C7: for every Long-mode buffer, the usable capacity (what
`capacity()` reports) equals the stored capacity minus the space given
over to an inline control block sitting after the payload within the
same allocation (the region from the block's start to the end of the
allocation; the block itself lies entirely inside it and after the
payload), when such a block is present; a separately allocated
(outline) control block, being disjoint from the payload allocation,
consumes no payload capacity, so usable capacity then equals the full
stored capacity.  Stated both for the address-level computation
(`usablecapAddr`, the `min (cbptr - ptr) cap` the code performs) and
for the structural model (`usablecapS`). -/
theorem c7_usablecap :
    (∀ ptr cap off len : Nat, len ≤ off → off + 8 ≤ cap →
      usablecapAddr ptr cap (ptr + off) = cap - (cap - off) ∧ cap - (cap - off) = off) ∧
    (∀ ptr cap cbaddr : Nat, (cbaddr + 8 ≤ ptr ∨ ptr + cap ≤ cbaddr) →
      usablecapAddr ptr cap cbaddr = cap) ∧
    (∀ (H : Heap) (aid cap c off len : Nat) (cell : CbCell),
      H.cbs c = some cell → cell.place = some (aid, off) → len ≤ off → off + 8 ≤ cap →
      usablecapS H aid cap (some c) = cap - (cap - off) ∧
      ∀ ptr : Nat, usablecapS H aid cap (some c) = usablecapAddr ptr cap (ptr + off)) ∧
    (∀ (H : Heap) (aid cap c : Nat) (cell : CbCell),
      H.cbs c = some cell → cell.place = none →
      usablecapS H aid cap (some c) = cap) := by
  have key : ∀ ptr cap off : Nat, off + 8 ≤ cap →
      usablecapAddr ptr cap (ptr + off) = off := by
    intro ptr cap off hoff
    unfold usablecapAddr
    rw [if_neg (by omega)]
    have : ptr + off - ptr = off := by omega
    rw [this]
    exact Nat.min_eq_left (by omega)
  refine ⟨?_, ?_, ?_, ?_⟩
  · intro ptr cap off len hl hoff
    rw [key ptr cap off hoff]
    omega
  · intro ptr cap cbaddr hd
    unfold usablecapAddr
    rcases hd with hlt | hge
    · rw [if_pos (by omega)]
    · by_cases hc : cbaddr < ptr
      · rw [if_pos hc]
      · rw [if_neg hc]
        exact Nat.min_eq_right (by omega)
  · intro H aid cap c off len cell hcb hp hl hoff
    have hS : usablecapS H aid cap (some c) = min off cap := by
      simp [usablecapS, hcb, hp]
    constructor
    · rw [hS, Nat.min_eq_left (by omega)]
      omega
    · intro ptr
      rw [hS, Nat.min_eq_left (by omega), key ptr cap off hoff]
  · intro H aid cap c cell hcb hp
    simp [usablecapS, hcb, hp]

/-- Witness for C7 at concrete inputs: an inline block at offset 40 of a
48-byte allocation with a 40-byte payload, and an outline block below
the payload address. -/
theorem c7_usablecap_witness :
    (usablecapAddr 64 48 (64 + 40) = 48 - (48 - 40) ∧ 48 - (48 - 40) = 40) ∧
    (usablecapAddr 64 48 8 = 48) :=
  ⟨c7_usablecap.1 64 48 40 40 (by decide) (by decide),
   c7_usablecap.2.1 64 48 8 (Or.inl (by decide))⟩

/-! ### Claim C8: reference-count overflow guard -/

/-- C8: for every shared buffer, if a clone operation finds the control
block value above `usize::MAX / 2` (so the increment would push the
reference count past half the representable range), the operation
panics instead of handing out a new handle, and the counter is restored
(not left increased past the guard); otherwise the clone succeeds and
the increment does not wrap. -/
theorem c8_overflow_guard (H : Heap) (len aid cap c : Nat) (cell : CbCell)
    (hc : H.cbs c = some cell) (hu : cell.val < USIZE) :
    (HALFMAX < cell.val →
      (cloneH H (.lheap len aid cap (some c))).2 = none ∧
      (cloneH H (.lheap len aid cap (some c))).1.cbs c = some cell) ∧
    (cell.val ≤ HALFMAX →
      (∃ p, (cloneH H (.lheap len aid cap (some c))).2 = some p) ∧
      (cloneH H (.lheap len aid cap (some c))).1.cbs c =
        some ⟨cell.val + 2, cell.place⟩ ∧
      cell.val + 2 < USIZE) := by
  constructor
  · intro hbig
    have hcl : cloneH H (.lheap len aid cap (some c)) =
        (setCbVal (setCbVal H c ((cell.val + 2) % USIZE)) c
          (((cell.val + 2) % USIZE + (USIZE - 2)) % USIZE), none) := by
      simp only [cloneH, hc]
      rw [if_pos hbig]
    rw [hcl]
    refine ⟨rfl, ?_⟩
    have h1 : (setCbVal H c ((cell.val + 2) % USIZE)).cbs c =
        some ⟨(cell.val + 2) % USIZE, cell.place⟩ :=
      setCbVal_cbs_self H c _ cell hc
    have h2 := setCbVal_cbs_self (setCbVal H c ((cell.val + 2) % USIZE)) c
      (((cell.val + 2) % USIZE + (USIZE - 2)) % USIZE) ⟨(cell.val + 2) % USIZE, cell.place⟩ h1
    rw [h2, restore_mod cell.val hu]
  · intro hsmall
    have hnb : ¬(HALFMAX < cell.val) := by omega
    have hlt : cell.val + 2 < USIZE := by
      have := USIZE_eq
      have := HALFMAX_eq
      omega
    have hcl : cloneH H (.lheap len aid cap (some c)) =
        (setCbVal H c ((cell.val + 2) % USIZE),
         some (.lheap len aid cap (some c), .lheap len aid cap (some c))) := by
      simp only [cloneH, hc]
      rw [if_neg hnb]
    rw [hcl]
    refine ⟨⟨_, rfl⟩, ?_, hlt⟩
    have h1 : (setCbVal H c ((cell.val + 2) % USIZE)).cbs c =
        some ⟨(cell.val + 2) % USIZE, cell.place⟩ :=
      setCbVal_cbs_self H c _ cell hc
    rw [h1, add2_mod cell.val hlt]

/-- Witness for C8 at a concrete input: a control block reading `2^63`
(count `2^62`), on which clone panics and restores the counter. -/
theorem c8_overflow_guard_witness :
    overflowHeap.cbs 0 = some ⟨2 ^ 63, none⟩ ∧
    (2 : Nat) ^ 63 < USIZE ∧ HALFMAX < (2 : Nat) ^ 63 ∧
    ((cloneH overflowHeap (.lheap 45 0 45 (some 0))).2 = none ∧
     (cloneH overflowHeap (.lheap 45 0 45 (some 0))).1.cbs 0 = some ⟨2 ^ 63, none⟩) :=
  ⟨by decide, by decide, by decide,
   (c8_overflow_guard overflowHeap 45 0 45 0 ⟨2 ^ 63, none⟩ (by decide) (by decide)).1
     (by decide)⟩

/-! ### Copy-on-write isolation machinery -/

theorem wf_aid_lt (H : Heap) (x : Handle) (hwf : wfL H x = true) :
    ∀ aid, aidOf x = some aid → aid < H.nA := by
  intro aid haid
  cases x with
  | short d => cases haid
  | lstatic b => cases haid
  | lheap len aid2 cap cbp =>
    injection haid with h5
    obtain ⟨hna, -, -⟩ := wf_lheap_elim H len aid2 cap cbp hwf
    omega

/-- Frame property of mutation through `deref_mut`: writing through one
handle `y` (which first forces uniqueness) does not change the bytes
observable through any other well-formed handle `x` that aliases `y`
only in the `aliasOK` way. -/
theorem mutFrame (H : Heap) (y x : Handle) (bytes : List Nat)
    (hwfy : wfL H y = true) (hwfx : wfL H x = true)
    (hly : isLong y = true) (hok : aliasOK H x y) :
    derefBytes (derefMutWrite H y bytes).1 x = derefBytes H x := by
  cases y with
  | short d => simp [isLong] at hly
  | lstatic b =>
    obtain ⟨hh2, hcbN, -⟩ := innerFromSlice_cb H b 0
    have fs := innerFromSlice_spec H b 0
    have hdw : derefMutWrite H (.lstatic b) bytes =
        (allocWrite (innerFromSlice H b true 0).1 H.nA 0 bytes,
         Handle.lheap b.length H.nA (alignUp8 (max b.length 0) + 8) (some H.nC)) := by
      simp only [derefMutWrite, makeUnique]
      rw [hh2]
    rw [hdw]
    refine derefBytes_congr H _ x ?_
    intro aid haid
    have hlt := wf_aid_lt H x hwfx aid haid
    rw [allocWrite_allocs_ne _ _ _ _ aid (by omega)]
    exact fs.allocsNe aid (by omega)
  | lheap ly ay capy cbp =>
    obtain ⟨hnay, ⟨ay2, hay, hay2, hay3, hay4⟩, hcbsy⟩ := wf_lheap_elim H ly ay capy cbp hwfy
    cases cbp with
    | none =>
      have hdw : derefMutWrite H (.lheap ly ay capy none) bytes =
          (allocWrite H ay 0 bytes, .lheap ly ay capy none) := by
        simp [derefMutWrite, makeUnique]
      rw [hdw]
      refine derefBytes_congr H _ x ?_
      intro aid haid
      have hne : aid ≠ ay := by
        intro heq
        subst heq
        obtain ⟨c, cell, hcx, hcy, -, -⟩ := hok aid haid rfl
        simp [cbpOf] at hcy
      exact allocWrite_allocs_ne H ay 0 bytes aid hne
    | some c =>
      obtain ⟨hc1, cell, hcb, hv2, hvU, hplace⟩ := hcbsy c rfl
      by_cases hone : cell.val / 2 = 1
      · have hdw : derefMutWrite H (.lheap ly ay capy (some c)) bytes =
            (allocWrite H ay 0 bytes, .lheap ly ay capy (some c)) := by
          simp [derefMutWrite, makeUnique, hcb, hone]
        rw [hdw]
        refine derefBytes_congr H _ x ?_
        intro aid haid
        have hne : aid ≠ ay := by
          intro heq
          subst heq
          obtain ⟨c2, cell2, hcx, hcy, hcb2, hv4⟩ := hok aid haid rfl
          simp only [cbpOf] at hcy
          injection hcy with h5
          rw [← h5] at hcb2
          rw [hcb] at hcb2
          injection hcb2 with h6
          rw [← h6] at hv4
          omega
        exact allocWrite_allocs_ne H ay 0 bytes aid hne
      · have hv4 : 4 ≤ cell.val := by omega
        set s := derefBytes H (.lheap ly ay capy (some c)) with hsdef
        obtain ⟨hh2, hcbN, -⟩ := innerFromSlice_cb H s 0
        have fs := innerFromSlice_spec H s 0
        have hmu : makeUnique H (.lheap ly ay capy (some c)) 0 true =
            (dropLong (innerFromSlice H s true 0).1 ay (some c),
             (innerFromSlice H s true 0).2) := by
          simp [makeUnique, hcb, hone]
        have hdw : derefMutWrite H (.lheap ly ay capy (some c)) bytes =
            (allocWrite (dropLong (innerFromSlice H s true 0).1 ay (some c)) H.nA 0 bytes,
             (innerFromSlice H s true 0).2) := by
          simp only [derefMutWrite]
          rw [hmu]
          rw [hh2]
        rw [hdw]
        have hcbr : (innerFromSlice H s true 0).1.cbs c = some cell := by
          rw [fs.cbsOld c (by omega)]
          exact hcb
        have hdl : dropLong (innerFromSlice H s true 0).1 ay (some c) =
            setCbVal (innerFromSlice H s true 0).1 c ((cell.val + (USIZE - 2)) % USIZE) := by
          simp only [dropLong, hcbr]
          rw [if_pos (by omega)]
        refine derefBytes_congr H _ x ?_
        intro aid haid
        have hlt := wf_aid_lt H x hwfx aid haid
        rw [allocWrite_allocs_ne _ _ _ _ aid (by omega), hdl, setCbVal_allocs]
        exact fs.allocsNe aid (by omega)

/-- What `clone` guarantees about the two resulting handles: both
well-formed and Long, dereferencing to the original bytes, and
aliasing-compatible with each other. -/
theorem clonePost (H : Heap) (a : Handle) (hwf : wfL H a = true) (hl : isLong a = true)
    (p : Handle × Handle) (hc : (cloneH H a).2 = some p) :
    wfL (cloneH H a).1 p.1 = true ∧ wfL (cloneH H a).1 p.2 = true ∧
    isLong p.1 = true ∧ isLong p.2 = true ∧
    aliasOK (cloneH H a).1 p.1 p.2 ∧ aliasOK (cloneH H a).1 p.2 p.1 ∧
    derefBytes (cloneH H a).1 p.1 = derefBytes H a ∧
    derefBytes (cloneH H a).1 p.2 = derefBytes H a := by
  cases a with
  | short d => simp [isLong] at hl
  | lstatic b =>
    have hcl : cloneH H (.lstatic b) = (H, some (.lstatic b, .lstatic b)) := rfl
    rw [hcl] at hc ⊢
    injection hc with h5
    rw [← h5]
    refine ⟨rfl, rfl, rfl, rfl, ?_, ?_, rfl, rfl⟩ <;>
      exact fun aid haid _ => by cases haid
  | lheap len aid cap cbp =>
    obtain ⟨hna, ⟨a2, ha, ha2, ha3, ha4⟩, hcbs⟩ := wf_lheap_elim H len aid cap cbp hwf
    cases cbp with
    | some c =>
      obtain ⟨hc1, cell, hcb, hv2, hvU, hplace⟩ := hcbs c rfl
      by_cases hbig : HALFMAX < cell.val
      · exfalso
        have : (cloneH H (.lheap len aid cap (some c))).2 = none := by
          simp only [cloneH, hcb]
          rw [if_pos hbig]
        rw [this] at hc
        cases hc
      · have hlt : cell.val + 2 < USIZE := by
          have := USIZE_eq
          have := HALFMAX_eq
          omega
        have hcl : cloneH H (.lheap len aid cap (some c)) =
            (setCbVal H c ((cell.val + 2) % USIZE),
             some (.lheap len aid cap (some c), .lheap len aid cap (some c))) := by
          simp only [cloneH, hcb]
          rw [if_neg hbig]
        rw [hcl] at hc ⊢
        injection hc with h5
        rw [← h5]
        have hcbn : (setCbVal H c ((cell.val + 2) % USIZE)).cbs c =
            some ⟨cell.val + 2, cell.place⟩ := by
          rw [setCbVal_cbs_self H c _ cell hcb, add2_mod cell.val hlt]
        have hwfn : wfL (setCbVal H c ((cell.val + 2) % USIZE))
            (.lheap len aid cap (some c)) = true := by
          refine wf_lheap_intro _ len aid cap (some c) ?_ ?_ ?_
          · rw [setCbVal_nA]
            exact hna
          · rw [setCbVal_allocs]
            exact ⟨a2, ha, ha2, ha3, ha4⟩
          · intro c2 hc2
            injection hc2 with h6
            rw [← h6]
            refine ⟨by rw [setCbVal_nC]; exact hc1, ⟨cell.val + 2, cell.place⟩, hcbn,
              (by omega : 2 ≤ cell.val + 2), hlt, ?_⟩
            rcases hplace with ⟨hp, hpar⟩ | ⟨off, hp, hpar, ho1, ho2⟩
            · exact Or.inl ⟨hp, (by omega : (cell.val + 2) % 2 = 0)⟩
            · exact Or.inr ⟨off, hp, (by omega : (cell.val + 2) % 2 = 1), ho1, ho2⟩
        have hali : aliasOK (setCbVal H c ((cell.val + 2) % USIZE))
            (.lheap len aid cap (some c)) (.lheap len aid cap (some c)) := by
          intro aid2 haid2 _
          exact ⟨c, ⟨cell.val + 2, cell.place⟩, rfl, rfl, hcbn,
            (by omega : 4 ≤ cell.val + 2)⟩
        have hder : derefBytes (setCbVal H c ((cell.val + 2) % USIZE))
            (.lheap len aid cap (some c)) = derefBytes H (.lheap len aid cap (some c)) :=
          derefBytes_congr H _ _ (fun aid2 _ => by rw [setCbVal_allocs])
        exact ⟨hwfn, hwfn, rfl, rfl, hali, hali, hder, hder⟩
    | none =>
      have hcl : cloneH H (.lheap len aid cap none) =
          (setCbVal (installCb H) H.nC ((2 + 2) % USIZE),
           some (.lheap len aid cap (some H.nC), .lheap len aid cap (some H.nC))) := by
        simp only [cloneH, installCb]
        rw [upd_self]
        simp [HALFMAX_eq]
      rw [hcl] at hc ⊢
      injection hc with h5
      rw [← h5]
      have hinst : (installCb H).cbs H.nC = some ⟨2, none⟩ := upd_self _ _ _
      have h44 : ((2 + 2) % USIZE : Nat) = 4 := by
        rw [USIZE_eq]
      have hcbn : (setCbVal (installCb H) H.nC ((2 + 2) % USIZE)).cbs H.nC =
          some ⟨4, none⟩ := by
        rw [setCbVal_cbs_self _ H.nC _ ⟨2, none⟩ hinst, h44]
      have hnA : (setCbVal (installCb H) H.nC ((2 + 2) % USIZE)).nA = H.nA := by
        rw [setCbVal_nA]
        rfl
      have hnC : (setCbVal (installCb H) H.nC ((2 + 2) % USIZE)).nC = H.nC + 1 := by
        rw [setCbVal_nC]
        rfl
      have hAl : (setCbVal (installCb H) H.nC ((2 + 2) % USIZE)).allocs = H.allocs := by
        rw [setCbVal_allocs]
        rfl
      have hwfn : wfL (setCbVal (installCb H) H.nC ((2 + 2) % USIZE))
          (.lheap len aid cap (some H.nC)) = true := by
        refine wf_lheap_intro _ len aid cap (some H.nC) ?_ ?_ ?_
        · rw [hnA]
          exact hna
        · rw [hAl]
          exact ⟨a2, ha, ha2, ha3, ha4⟩
        · intro c2 hc2
          injection hc2 with h6
          rw [← h6]
          refine ⟨by rw [hnC]; omega, ⟨4, none⟩, hcbn, (by norm_num : (2 : Nat) ≤ 4),
            (by rw [USIZE_eq]; norm_num : (4 : Nat) < USIZE),
            Or.inl ⟨rfl, (by norm_num : (4 : Nat) % 2 = 0)⟩⟩
      have hali : aliasOK (setCbVal (installCb H) H.nC ((2 + 2) % USIZE))
          (.lheap len aid cap (some H.nC)) (.lheap len aid cap (some H.nC)) := by
        intro aid2 haid2 _
        exact ⟨H.nC, ⟨4, none⟩, rfl, rfl, hcbn, (by norm_num : (4 : Nat) ≤ 4)⟩
      have hder : derefBytes (setCbVal (installCb H) H.nC ((2 + 2) % USIZE))
          (.lheap len aid cap (some H.nC)) = derefBytes H (.lheap len aid cap none) := by
        refine (derefBytes_congr H _ _ ?_).trans ?_
        · intro aid2 _
          rw [hAl]
        · rfl
      exact ⟨hwfn, hwfn, rfl, rfl, hali, hali, hder, hder⟩

/-! ### Claim C2: copy-on-write isolation -/

/-- C2: for every well-formed Long-mode MAByteString `a` and its clone
`b = a.clone()` (when the clone succeeds), mutating `b` through the
mutable-dereference path -- which forces uniqueness -- leaves the
dereferenced byte contents of `a` unchanged (still the original bytes),
and symmetrically mutating `a` leaves the byte contents of `b`
unchanged. -/
theorem c2_cow_isolation (H : Heap) (a : Handle) (hwf : wfL H a = true)
    (hl : isLong a = true) (p : Handle × Handle) (hc : (cloneH H a).2 = some p)
    (bytes : List Nat) :
    derefBytes (derefMutWrite (cloneH H a).1 p.2 bytes).1 p.1 =
      derefBytes (cloneH H a).1 p.1 ∧
    derefBytes (cloneH H a).1 p.1 = derefBytes H a ∧
    derefBytes (derefMutWrite (cloneH H a).1 p.1 bytes).1 p.2 =
      derefBytes (cloneH H a).1 p.2 ∧
    derefBytes (cloneH H a).1 p.2 = derefBytes H a := by
  obtain ⟨hw1, hw2, hl1, hl2, hab, hba, hd1, hd2⟩ := clonePost H a hwf hl p hc
  exact ⟨mutFrame (cloneH H a).1 p.2 p.1 bytes hw2 hw1 hl2 hab, hd1,
         mutFrame (cloneH H a).1 p.1 p.2 bytes hw1 hw2 hl1 hba, hd2⟩

/-- Witness for C2 at a concrete input: a 45-byte unique Long buffer
whose clone is overwritten with 45 one-bytes; the original still
dereferences to the original contents. -/
theorem c2_cow_isolation_witness :
    wfL (fromVec H0 ⟨List.replicate 45 65, 45⟩).1 (fromVec H0 ⟨List.replicate 45 65, 45⟩).2 =
      true ∧
    isLong (fromVec H0 ⟨List.replicate 45 65, 45⟩).2 = true ∧
    (cloneH (fromVec H0 ⟨List.replicate 45 65, 45⟩).1
        (fromVec H0 ⟨List.replicate 45 65, 45⟩).2).2 =
      some (Handle.lheap 45 0 45 (some 0), Handle.lheap 45 0 45 (some 0)) ∧
    derefBytes
      (derefMutWrite
        (cloneH (fromVec H0 ⟨List.replicate 45 65, 45⟩).1
          (fromVec H0 ⟨List.replicate 45 65, 45⟩).2).1
        (Handle.lheap 45 0 45 (some 0)) (List.replicate 45 1)).1
      (Handle.lheap 45 0 45 (some 0)) =
      derefBytes
        (cloneH (fromVec H0 ⟨List.replicate 45 65, 45⟩).1
          (fromVec H0 ⟨List.replicate 45 65, 45⟩).2).1
        (Handle.lheap 45 0 45 (some 0)) :=
  ⟨by decide, by decide, by decide,
   (c2_cow_isolation (fromVec H0 ⟨List.replicate 45 65, 45⟩).1
      (fromVec H0 ⟨List.replicate 45 65, 45⟩).2 (by decide) (by decide)
      (Handle.lheap 45 0 45 (some 0), Handle.lheap 45 0 45 (some 0)) (by decide)
      (List.replicate 45 1)).1⟩

/-! ### Claim C6: the 45-byte exact-capacity scenario -/

/-- C6 counterexample: the scenario runs as the claim says up to the
drop -- construction yields mode "unique", cloning makes both handles
report the shared-outline mode ("cbowned (shared)") -- but after
dropping one of the two handles the remaining handle does NOT report
mode "unique": it reports "cbowned (unique)" (shared-outline, solely
referenced), because dropping the sibling only decrements the control
block and does not null the survivor's control-block pointer. -/
theorem c6_mode_counterexample :
    getModeH c6s1.1 c6s1.2 = "unique" ∧
    (cloneH c6s1.1 c6s1.2).2 = some (c6h, c6h) ∧
    getModeH c6H2 c6h = "cbowned (shared)" ∧
    getModeH c6H3 c6h = "cbowned (unique)" ∧
    ¬ getModeH c6H3 c6h = "unique" := by
  refine ⟨by decide, by decide, by decide, by decide, by decide⟩

/-- C6 amended: constructing a 45-byte buffer from an owned Vec with
exactly enough capacity (no room for an inline control block) yields
mode `unique` with capacity 45; cloning it makes both handles report
the shared-outline mode ("cbowned (shared)"); after dropping one of the
two handles, the remaining handle reports the shared-outline mode as
solely referenced ("cbowned (unique)"), with its original capacity. -/
theorem c6_scenario_amended :
    getModeH c6s1.1 c6s1.2 = "unique" ∧
    capacityH c6s1.1 c6s1.2 = 45 ∧
    (cloneH c6s1.1 c6s1.2).2 = some (c6h, c6h) ∧
    getModeH c6H2 c6h = "cbowned (shared)" ∧
    getModeH c6H3 c6h = "cbowned (unique)" ∧
    capacityH c6H3 c6h = 45 := by
  refine ⟨by decide, by decide, by decide, by decide, by decide, by decide⟩

/-! ### Counting and compatibility lemmas -/

theorem countH_append (l1 l2 : List Handle) (c : Nat) :
    countH (l1 ++ l2) c = countH l1 c + countH l2 c :=
  List.countP_append _ _ _

theorem countH_cons (a : Handle) (l : List Handle) (c : Nat) :
    countH (a :: l) c = countH l c + (if pointsTo a c then 1 else 0) := by
  simp [countH, List.countP_cons]

theorem countH_single (b : Handle) (c : Nat) :
    countH [b] c = if pointsTo b c then 1 else 0 := by
  simp [countH, List.countP_cons]

theorem countH_pos (l : List Handle) (c : Nat) (h : 0 < countH l c) :
    ∃ x ∈ l, pointsTo x c = true := by
  rw [countH, List.countP_pos_iff] at h
  exact h

theorem pointsTo_eq_true (h : Handle) (c : Nat) :
    pointsTo h c = true ↔ cbpOf h = some c := by
  cases h with
  | short d => simp [pointsTo, cbpOf]
  | lstatic b => simp [pointsTo, cbpOf]
  | lheap len aid cap cbp =>
    cases cbp with
    | none => simp [pointsTo, cbpOf]
    | some c2 => simp [pointsTo, cbpOf, Nat.beq_eq]

theorem pointsTo_fresh (H : Heap) (x : Handle) (hwf : wfL H x = true) (n : Nat)
    (hn : H.nC ≤ n) : pointsTo x n = false := by
  cases x with
  | short d => rfl
  | lstatic b => rfl
  | lheap len aid cap cbp =>
    cases cbp with
    | none => rfl
    | some c2 =>
      obtain ⟨-, -, hcbs⟩ := wf_lheap_elim H len aid cap (some c2) hwf
      obtain ⟨hlt, -⟩ := hcbs c2 rfl
      simp [pointsTo]
      omega

theorem wf_cb_lt (H : Heap) (x : Handle) (hwf : wfL H x = true) :
    ∀ c2, cbpOf x = some c2 → c2 < H.nC := by
  intro c2 hc2
  cases x with
  | short d => cases hc2
  | lstatic b => cases hc2
  | lheap len aid cap cbp =>
    simp only [cbpOf] at hc2
    subst hc2
    obtain ⟨-, -, hcbs⟩ := wf_lheap_elim H len aid cap (some c2) hwf
    exact (hcbs c2 rfl).1

theorem compat_symm (x y : Handle) (h : compatH x y) : compatH y x := by
  intro a hy hx
  obtain ⟨c, h1, h2⟩ := h a hx hy
  exact ⟨c, h2, h1⟩

theorem compat_nonheap_right (x y : Handle) (hy : aidOf y = none) : compatH x y := by
  intro a _ hy2
  rw [hy] at hy2
  cases hy2

theorem compat_nonheap_left (x y : Handle) (hy : aidOf y = none) : compatH y x := by
  intro a hy2 _
  rw [hy] at hy2
  cases hy2

theorem compat_congr_right (x y y2 : Handle) (ha : aidOf y2 = aidOf y)
    (hc : cbpOf y2 = cbpOf y) (h : compatH x y) : compatH x y2 := by
  intro a hx hy2
  rw [ha] at hy2
  obtain ⟨c, h1, h2⟩ := h a hx hy2
  exact ⟨c, h1, by rw [hc]; exact h2⟩

/-- Preservation of well-formedness when one control block's value
changes without changing its parity. -/
theorem wf_after_setCbVal (H : Heap) (h : Handle) (c : Nat) (cell : CbCell) (v : Nat)
    (hcb : H.cbs c = some cell) (hv2 : 2 ≤ v) (hvU : v < USIZE)
    (hpar : v % 2 = cell.val % 2) (hwf : wfL H h = true) :
    wfL (setCbVal H c v) h = true := by
  cases h with
  | short d => exact hwf
  | lstatic b => exact hwf
  | lheap len aid cap cbp =>
    obtain ⟨hna, ⟨a, ha, ha2, ha3, ha4⟩, hcbs⟩ := wf_lheap_elim H len aid cap cbp hwf
    refine wf_lheap_intro _ len aid cap cbp ?_ ?_ ?_
    · rw [setCbVal_nA]
      exact hna
    · rw [setCbVal_allocs]
      exact ⟨a, ha, ha2, ha3, ha4⟩
    · intro c2 hc2
      obtain ⟨hlt, cell2, hcb2, hx2, hxU, hplace⟩ := hcbs c2 hc2
      by_cases hcc : c2 = c
      · subst hcc
        rw [hcb] at hcb2
        injection hcb2 with h6
        refine ⟨by rw [setCbVal_nC]; exact hlt, ⟨v, cell.place⟩,
          setCbVal_cbs_self H c2 v cell hcb, hv2, hvU, ?_⟩
        rw [← h6] at hplace
        rcases hplace with ⟨hp, hpar2⟩ | ⟨off, hp, hpar2, ho1, ho2⟩
        · exact Or.inl ⟨hp, (by omega : v % 2 = 0)⟩
        · exact Or.inr ⟨off, hp, (by omega : v % 2 = 1), ho1, ho2⟩
      · exact ⟨by rw [setCbVal_nC]; exact hlt, cell2,
          by rw [setCbVal_cbs_ne H c v c2 hcc]; exact hcb2, hx2, hxU, hplace⟩

/-- `dropLong` maps a dead cell to a dead cell. -/
theorem dropLong_cbs_none (Hx : Heap) (aid : Nat) (cbp : Option Nat) (c4 : Nat)
    (h : Hx.cbs c4 = none) : (dropLong Hx aid cbp).cbs c4 = none := by
  cases cbp with
  | none =>
    simp only [dropLong]
    exact freeAlloc_cbs_none Hx aid c4 h
  | some c =>
    cases hcb : Hx.cbs c with
    | none => simp [dropLong, hcb, h]
    | some cell =>
      have hne : c4 ≠ c := by
        intro heq
        rw [heq, hcb] at h
        cases h
      simp only [dropLong, hcb]
      by_cases h3 : 3 < cell.val
      · rw [if_pos h3, setCbVal_cbs_ne _ _ _ _ hne]
        exact h
      · rw [if_neg h3]
        have h1 : (setCbVal Hx c ((cell.val + (USIZE - 2)) % USIZE)).cbs c4 = none := by
          rw [setCbVal_cbs_ne _ _ _ _ hne]
          exact h
        by_cases he : cell.val % 2 = 0
        · rw [if_pos he]
          refine freeAlloc_cbs_none _ aid c4 ?_
          rw [freeCb_cbs_ne _ _ _ hne]
          exact h1
        · rw [if_neg he]
          exact freeAlloc_cbs_none _ aid c4 h1

/-- On the last drop (`val ≤ 3`) the control block itself dies: an
outline block is `Box`-freed, an inline block (placed in the freed
allocation) dies with the payload. -/
theorem dropLong_cbs_self_freed (Hx : Heap) (aid c : Nat) (cell : CbCell)
    (hcb : Hx.cbs c = some cell) (hle : cell.val ≤ 3)
    (hodd : cell.val % 2 = 1 → ∃ off, cell.place = some (aid, off)) :
    (dropLong Hx aid (some c)).cbs c = none := by
  simp only [dropLong, hcb]
  rw [if_neg (by omega)]
  by_cases he : cell.val % 2 = 0
  · rw [if_pos he]
    refine freeAlloc_cbs_none _ aid c ?_
    exact freeCb_cbs_self _ c
  · rw [if_neg he]
    obtain ⟨off, hoff⟩ := hodd (by omega)
    refine freeAlloc_cbs_inline _ aid c ⟨(cell.val + (USIZE - 2)) % USIZE, cell.place⟩
      (setCbVal_cbs_self Hx c _ cell hcb) (aid, off) ?_ rfl
    exact hoff

/-- On a non-final drop (`val > 3`) the only heap change is the
decrement. -/
theorem dropLong_decr (Hx : Heap) (aid c : Nat) (cell : CbCell)
    (hcb : Hx.cbs c = some cell) (h3 : 3 < cell.val) (hU : cell.val < USIZE) :
    dropLong Hx aid (some c) = setCbVal Hx c (cell.val - 2) := by
  simp only [dropLong, hcb]
  rw [if_pos h3, sub2_mod cell.val (by omega) hU]

theorem countH_clone_split (hs1 hs2 : List Handle) (a2 b : Handle) (c : Nat) :
    countH (hs1 ++ a2 :: (hs2 ++ [b])) c =
      countH hs1 c + countH hs2 c + (if pointsTo a2 c then 1 else 0) +
        (if pointsTo b c then 1 else 0) := by
  rw [countH_append, countH_cons, countH_append, countH_single]
  omega

theorem countH_mid_split (hs1 hs2 : List Handle) (a : Handle) (c : Nat) :
    countH (hs1 ++ a :: hs2) c =
      countH hs1 c + countH hs2 c + (if pointsTo a c then 1 else 0) := by
  rw [countH_append, countH_cons]
  omega

theorem countH_eq_zero (l : List Handle) (c : Nat)
    (h : ∀ x ∈ l, pointsTo x c = false) : countH l c = 0 := by
  rw [countH, List.countP_eq_zero]
  intro x hx
  simp [h x hx]

theorem pairwise_clone_assemble (hs1 hs2 : List Handle) (a a2 b : Handle)
    (pwAll : List.Pairwise compatH (hs1 ++ a :: hs2))
    (tr : ∀ x y : Handle, compatH x a → (y = a2 ∨ y = b) → compatH x y)
    (hab : compatH a2 b) :
    List.Pairwise compatH (hs1 ++ a2 :: (hs2 ++ [b])) := by
  obtain ⟨pw1, pwc, hcr⟩ := List.pairwise_append.mp pwAll
  obtain ⟨hahs2, pw2⟩ := List.pairwise_cons.mp pwc
  refine List.pairwise_append.mpr ⟨pw1, ?_, ?_⟩
  · refine List.pairwise_cons.mpr ⟨?_, ?_⟩
    · intro y hy
      rcases List.mem_append.mp hy with hy2 | hyb
      · have h1 : compatH y a := compat_symm a y (hahs2 y hy2)
        exact compat_symm y a2 (tr y a2 h1 (Or.inl rfl))
      · rw [List.mem_singleton] at hyb
        rw [hyb]
        exact hab
    · refine List.pairwise_append.mpr ⟨pw2, ?_, ?_⟩
      · simp
      · intro x hx y hy
        rw [List.mem_singleton] at hy
        subst hy
        have h1 : compatH x a := compat_symm a x (hahs2 x hx)
        exact tr x y h1 (Or.inr rfl)
  · intro x hx y hy
    have hxa : compatH x a := hcr x hx a (List.mem_cons_self a hs2)
    rcases List.mem_cons.mp hy with hy2 | hy3
    · rw [hy2]
      exact tr x a2 hxa (Or.inl rfl)
    · rcases List.mem_append.mp hy3 with hy4 | hy5
      · exact hcr x hx y (List.mem_cons_of_mem a hy4)
      · rw [List.mem_singleton] at hy5
        rw [hy5]
        exact tr x b hxa (Or.inr rfl)

/-- Preservation of the global invariant under a clone step. -/
theorem invClone (H : Heap) (hs1 hs2 : List Handle) (a : Handle) (H2 : Heap) (a2 b : Handle)
    (hinv : InvG (H, hs1 ++ a :: hs2)) (hcl : cloneH H a = (H2, some (a2, b))) :
    InvG (H2, hs1 ++ a2 :: (hs2 ++ [b])) := by
  have hwa : wfL H a = true := hinv.wfAll a (by simp)
  cases a with
  | short d =>
    have hc2 : H2 = H ∧ a2 = Handle.short d ∧ b = Handle.short d := by
      simp only [cloneH] at hcl
      injection hcl with h1 h2
      injection h2 with h2
      injection h2 with h3 h4
      exact ⟨h1.symm, h3.symm, h4.symm⟩
    obtain ⟨rfl, rfl, rfl⟩ := hc2
    refine ⟨?_, ?_, ?_⟩
    · intro h hmem
      rcases List.mem_append.mp hmem with hm1 | hm2
      · exact hinv.wfAll h (List.mem_append.mpr (Or.inl hm1))
      · rcases List.mem_cons.mp hm2 with hm3 | hm4
        · rw [hm3]
          exact hwa
        · rcases List.mem_append.mp hm4 with hm5 | hm6
          · exact hinv.wfAll h (by simp [hm5])
          · rw [List.mem_singleton] at hm6
            rw [hm6]
            exact hwa
    · intro c cell hc
      obtain ⟨h1, h2, h3⟩ := hinv.cbCount c cell hc
      rw [countH_mid_split] at h1 h2
      rw [countH_clone_split]
      have hp : pointsTo (Handle.short d) c = false := rfl
      simp only [hp, Bool.false_eq_true, if_false] at h1 h2 ⊢
      exact ⟨by omega, by omega, h3⟩
    · refine pairwise_clone_assemble hs1 hs2 _ _ _ hinv.pw ?_ ?_
      · intro x y _ hy
        rcases hy with rfl | rfl <;> exact compat_nonheap_right x _ rfl
      · exact compat_nonheap_right _ _ rfl
  | lstatic bs =>
    have hc2 : H2 = H ∧ a2 = Handle.lstatic bs ∧ b = Handle.lstatic bs := by
      simp only [cloneH] at hcl
      injection hcl with h1 h2
      injection h2 with h2
      injection h2 with h3 h4
      exact ⟨h1.symm, h3.symm, h4.symm⟩
    obtain ⟨rfl, rfl, rfl⟩ := hc2
    refine ⟨?_, ?_, ?_⟩
    · intro h hmem
      rcases List.mem_append.mp hmem with hm1 | hm2
      · exact hinv.wfAll h (List.mem_append.mpr (Or.inl hm1))
      · rcases List.mem_cons.mp hm2 with hm3 | hm4
        · rw [hm3]
          exact hwa
        · rcases List.mem_append.mp hm4 with hm5 | hm6
          · exact hinv.wfAll h (by simp [hm5])
          · rw [List.mem_singleton] at hm6
            rw [hm6]
            exact hwa
    · intro c cell hc
      obtain ⟨h1, h2, h3⟩ := hinv.cbCount c cell hc
      rw [countH_mid_split] at h1 h2
      rw [countH_clone_split]
      have hp : pointsTo (Handle.lstatic bs) c = false := rfl
      simp only [hp, Bool.false_eq_true, if_false] at h1 h2 ⊢
      exact ⟨by omega, by omega, h3⟩
    · refine pairwise_clone_assemble hs1 hs2 _ _ _ hinv.pw ?_ ?_
      · intro x y _ hy
        rcases hy with rfl | rfl <;> exact compat_nonheap_right x _ rfl
      · exact compat_nonheap_right _ _ rfl
  | lheap len aid cap cbp =>
    obtain ⟨hna, ⟨al, hal, hal2, hal3, hal4⟩, hcbs⟩ := wf_lheap_elim H len aid cap cbp hwa
    cases cbp with
    | some c =>
      obtain ⟨hcn, cell, hcb, hv2, hvU, hplace⟩ := hcbs c rfl
      by_cases hbig : HALFMAX < cell.val
      · exfalso
        have hno : (cloneH H (.lheap len aid cap (some c))).2 = none := by
          simp only [cloneH, hcb]
          rw [if_pos hbig]
        rw [hcl] at hno
        cases hno
      · have hlt : cell.val + 2 < USIZE := by
          have := USIZE_eq
          have := HALFMAX_eq
          omega
        have hceq : cloneH H (.lheap len aid cap (some c)) =
            (setCbVal H c ((cell.val + 2) % USIZE),
             some (.lheap len aid cap (some c), .lheap len aid cap (some c))) := by
          simp only [cloneH, hcb]
          rw [if_neg hbig]
        rw [hceq] at hcl
        injection hcl with h1 h2
        injection h2 with h2
        injection h2 with h3 h4
        subst h1
        subst h3
        subst h4
        rw [add2_mod cell.val hlt]
        have hcbn : (setCbVal H c (cell.val + 2)).cbs c =
            some ⟨cell.val + 2, cell.place⟩ :=
          setCbVal_cbs_self H c _ cell hcb
        refine ⟨?_, ?_, ?_⟩
        · intro h hmem
          have hold : wfL H h = true := by
            rcases List.mem_append.mp hmem with hm1 | hm2
            · exact hinv.wfAll h (List.mem_append.mpr (Or.inl hm1))
            · rcases List.mem_cons.mp hm2 with hm3 | hm4
              · rw [hm3]
                exact hwa
              · rcases List.mem_append.mp hm4 with hm5 | hm6
                · exact hinv.wfAll h (by simp [hm5])
                · rw [List.mem_singleton] at hm6
                  rw [hm6]
                  exact hwa
          exact wf_after_setCbVal H h c cell (cell.val + 2) hcb (by omega) hlt
            (by omega) hold
        · intro c2 cell2 hc2
          by_cases hcc : c2 = c
          · subst hcc
            rw [hcbn] at hc2
            injection hc2 with h6
            have hv2e : cell2.val = cell.val + 2 := by rw [← h6]
            obtain ⟨h7, h8, -⟩ := hinv.cbCount c2 cell hcb
            rw [countH_mid_split] at h7 h8
            rw [countH_clone_split]
            have hpt : pointsTo (Handle.lheap len aid cap (some c2)) c2 = true := by
              simp [pointsTo]
            simp only [hpt, eq_self_iff_true, if_true] at h7 h8 ⊢
            exact ⟨by omega, by omega, by omega⟩
          · have hkeep : (setCbVal H c (cell.val + 2)).cbs c2 = H.cbs c2 :=
              setCbVal_cbs_ne _ _ _ _ hcc
            rw [hkeep] at hc2
            obtain ⟨h7, h8, h9⟩ := hinv.cbCount c2 cell2 hc2
            rw [countH_mid_split] at h7 h8
            rw [countH_clone_split]
            have hpt : pointsTo (Handle.lheap len aid cap (some c)) c2 = false := by
              simp only [pointsTo, beq_eq_false_iff_ne, ne_eq]
              omega
            simp only [hpt, Bool.false_eq_true, if_false] at h7 h8 ⊢
            exact ⟨by omega, by omega, h9⟩
        · refine pairwise_clone_assemble hs1 hs2 _ _ _ hinv.pw ?_ ?_
          · intro x y hxa hy
            rcases hy with rfl | rfl <;> exact hxa
          · intro a2 h1 h2
            exact ⟨c, rfl, rfl⟩
    | none =>
      have hceq : cloneH H (.lheap len aid cap none) =
          (setCbVal (installCb H) H.nC ((2 + 2) % USIZE),
           some (.lheap len aid cap (some H.nC), .lheap len aid cap (some H.nC))) := by
        simp only [cloneH, installCb]
        rw [upd_self]
        simp [HALFMAX_eq]
      rw [hceq] at hcl
      injection hcl with h1 h2
      injection h2 with h2
      injection h2 with h3 h4
      subst h1
      subst h3
      subst h4
      have h44 : ((2 + 2) % USIZE : Nat) = 4 := by
        rw [USIZE_eq]
      rw [h44]
      have hinst : (installCb H).cbs H.nC = some ⟨2, none⟩ := upd_self _ _ _
      have hcbn : (setCbVal (installCb H) H.nC 4).cbs H.nC = some ⟨4, none⟩ :=
        setCbVal_cbs_self _ _ _ ⟨2, none⟩ hinst
      have hAl : (setCbVal (installCb H) H.nC 4).allocs = H.allocs := by
        rw [setCbVal_allocs]
        rfl
      have hnA2 : (setCbVal (installCb H) H.nC 4).nA = H.nA := by
        rw [setCbVal_nA]
        rfl
      have hnC2 : (setCbVal (installCb H) H.nC 4).nC = H.nC + 1 := by
        rw [setCbVal_nC]
        rfl
      have hcbs_ne : ∀ c2, c2 ≠ H.nC → (setCbVal (installCb H) H.nC 4).cbs c2 = H.cbs c2 := by
        intro c2 hc2
        rw [setCbVal_cbs_ne _ _ _ _ hc2]
        exact upd_ne _ _ _ _ hc2
      have hmemwf : ∀ x ∈ hs1 ++ (Handle.lheap len aid cap none) :: hs2, wfL H x = true :=
        hinv.wfAll
      refine ⟨?_, ?_, ?_⟩
      · intro h hmem
        have hnew : wfL (setCbVal (installCb H) H.nC 4)
            (Handle.lheap len aid cap (some H.nC)) = true := by
          refine wf_lheap_intro _ len aid cap (some H.nC) ?_ ?_ ?_
          · rw [hnA2]
            exact hna
          · rw [hAl]
            exact ⟨al, hal, hal2, hal3, hal4⟩
          · intro c2 hc2
            injection hc2 with h6
            rw [← h6]
            refine ⟨by rw [hnC2]; omega, ⟨4, none⟩, hcbn, (by norm_num : (2 : Nat) ≤ 4),
              (by rw [USIZE_eq]; norm_num : (4 : Nat) < USIZE),
              Or.inl ⟨rfl, (by norm_num : (4 : Nat) % 2 = 0)⟩⟩
        have hold2new : ∀ x : Handle, wfL H x = true →
            wfL (setCbVal (installCb H) H.nC 4) x = true := by
          intro x hx
          refine wfL_congr H _ x (fun aid2 _ => by rw [hAl]) ?_
            (by rw [hnA2]) (by rw [hnC2]; omega) hx
          intro c2 hc2
          refine hcbs_ne c2 ?_
          have := wf_cb_lt H x hx c2 hc2
          omega
        rcases List.mem_append.mp hmem with hm1 | hm2
        · exact hold2new h (hmemwf h (List.mem_append.mpr (Or.inl hm1)))
        · rcases List.mem_cons.mp hm2 with hm3 | hm4
          · rw [hm3]
            exact hnew
          · rcases List.mem_append.mp hm4 with hm5 | hm6
            · exact hold2new h (hmemwf h (by simp [hm5]))
            · rw [List.mem_singleton] at hm6
              rw [hm6]
              exact hnew
      · intro c2 cell2 hc2
        by_cases hcc : c2 = H.nC
        · subst hcc
          rw [hcbn] at hc2
          injection hc2 with h6
          have hv2e : cell2.val = 4 := by rw [← h6]
          have hz1 : countH hs1 H.nC = 0 := by
            refine countH_eq_zero hs1 H.nC ?_
            intro x hx
            exact pointsTo_fresh H x (hmemwf x (List.mem_append.mpr (Or.inl hx))) H.nC
              (le_refl _)
          have hz2 : countH hs2 H.nC = 0 := by
            refine countH_eq_zero hs2 H.nC ?_
            intro x hx
            exact pointsTo_fresh H x (hmemwf x (by simp [hx])) H.nC (le_refl _)
          rw [countH_clone_split, hz1, hz2]
          have hpt : pointsTo (Handle.lheap len aid cap (some H.nC)) H.nC = true := by
            simp [pointsTo]
          simp only [hpt, eq_self_iff_true, if_true]
          refine ⟨by omega, by omega, by rw [USIZE_eq]; omega⟩
        · rw [hcbs_ne c2 hcc] at hc2
          obtain ⟨h7, h8, h9⟩ := hinv.cbCount c2 cell2 hc2
          rw [countH_mid_split] at h7 h8
          rw [countH_clone_split]
          have hpt0 : pointsTo (Handle.lheap len aid cap none) c2 = false := rfl
          have hpt : pointsTo (Handle.lheap len aid cap (some H.nC)) c2 = false := by
            simp only [pointsTo, beq_eq_false_iff_ne, ne_eq]
            omega
          simp only [hpt0, Bool.false_eq_true, if_false] at h7 h8
          simp only [hpt, Bool.false_eq_true, if_false]
          exact ⟨by omega, by omega, h9⟩
      · refine pairwise_clone_assemble hs1 hs2 _ _ _ hinv.pw ?_ ?_
        · intro x y hxa hy
          have hgoal : compatH x (Handle.lheap len aid cap (some H.nC)) := by
            intro a3 hxA ha2A
            simp only [aidOf] at ha2A
            injection ha2A with h7
            subst h7
            obtain ⟨c2, hxc, hac⟩ := hxa aid hxA rfl
            simp [cbpOf] at hac
          rcases hy with rfl | rfl <;> exact hgoal
        · intro a2 h1 h2
          exact ⟨H.nC, rfl, rfl⟩

theorem wf_cb_some (H : Heap) (x : Handle) (hwf : wfL H x = true) (c2 : Nat)
    (hc2 : cbpOf x = some c2) :
    ∃ cell2, H.cbs c2 = some cell2 ∧ 2 ≤ cell2.val ∧ cell2.val < USIZE := by
  cases x with
  | short d => cases hc2
  | lstatic b => cases hc2
  | lheap len aid cap cbp =>
    simp only [cbpOf] at hc2
    subst hc2
    obtain ⟨-, -, hcbs⟩ := wf_lheap_elim H len aid cap (some c2) hwf
    obtain ⟨-, cell2, h1, h2, h3, -⟩ := hcbs c2 rfl
    exact ⟨cell2, h1, h2, h3⟩

theorem wf_place (H : Heap) (x : Handle) (hwf : wfL H x = true) (c2 : Nat) (cell2 : CbCell)
    (hxc : cbpOf x = some c2) (hc2 : H.cbs c2 = some cell2) :
    ∀ pa, cell2.place = some pa → aidOf x = some pa.1 := by
  intro pa hpa
  cases x with
  | short d => cases hxc
  | lstatic b => cases hxc
  | lheap len aid cap cbp =>
    simp only [cbpOf] at hxc
    subst hxc
    obtain ⟨-, -, hcbs⟩ := wf_lheap_elim H len aid cap (some c2) hwf
    obtain ⟨-, cell3, h1, -, -, hpl⟩ := hcbs c2 rfl
    rw [hc2] at h1
    injection h1 with h4
    rw [← h4] at hpl
    rcases hpl with ⟨hp, -⟩ | ⟨off, hp, -, -, -⟩
    · rw [hp] at hpa
      cases hpa
    · rw [hp] at hpa
      injection hpa with h5
      rw [← h5]
      rfl

theorem freeAlloc_cbs_inv (H : Heap) (aid c : Nat) (cell : CbCell)
    (h : (freeAlloc H aid).cbs c = some cell) : H.cbs c = some cell := by
  cases hx : H.cbs c with
  | none =>
    rw [freeAlloc_cbs_none H aid c hx] at h
    cases h
  | some cell0 =>
    simp only [freeAlloc, hx] at h
    cases hp : cell0.place with
    | none =>
      simp only [hp] at h
      exact h
    | some pa =>
      simp only [hp] at h
      by_cases hpa : pa.1 = aid
      · rw [if_pos hpa] at h
        cases h
      · rw [if_neg hpa] at h
        exact h

/-- Preservation of the global invariant under a drop step. -/
theorem invDrop (H : Heap) (hs1 hs2 : List Handle) (a : Handle)
    (hinv : InvG (H, hs1 ++ a :: hs2)) :
    InvG (dropH H a, hs1 ++ hs2) := by
  have hwa : wfL H a = true := hinv.wfAll a (by simp)
  obtain ⟨pw1, pwc, hcr⟩ := List.pairwise_append.mp hinv.pw
  obtain ⟨hahs2, pw2⟩ := List.pairwise_cons.mp pwc
  have hcompat : ∀ x ∈ hs1 ++ hs2, compatH x a := by
    intro x hx
    rcases List.mem_append.mp hx with h1 | h2
    · exact hcr x h1 a (List.mem_cons_self _ _)
    · exact compat_symm a x (hahs2 x h2)
  have pwNew : List.Pairwise compatH (hs1 ++ hs2) := by
    refine List.pairwise_append.mpr ⟨pw1, pw2, ?_⟩
    intro x hx y hy
    exact hcr x hx y (List.mem_cons_of_mem a hy)
  have hwfsur : ∀ x ∈ hs1 ++ hs2, wfL H x = true := by
    intro x hx
    rcases List.mem_append.mp hx with h1 | h2
    · exact hinv.wfAll x (List.mem_append.mpr (Or.inl h1))
    · exact hinv.wfAll x (by simp [h2])
  cases a with
  | short d =>
    refine ⟨hwfsur, ?_, pwNew⟩
    intro c cell hc
    obtain ⟨h1, h2, h3⟩ := hinv.cbCount c cell hc
    rw [countH_mid_split] at h1 h2
    have hp : pointsTo (Handle.short d) c = false := rfl
    simp only [hp, Bool.false_eq_true, if_false] at h1 h2
    rw [countH_append]
    exact ⟨by omega, by omega, h3⟩
  | lstatic bs =>
    refine ⟨hwfsur, ?_, pwNew⟩
    intro c cell hc
    obtain ⟨h1, h2, h3⟩ := hinv.cbCount c cell hc
    rw [countH_mid_split] at h1 h2
    have hp : pointsTo (Handle.lstatic bs) c = false := rfl
    simp only [hp, Bool.false_eq_true, if_false] at h1 h2
    rw [countH_append]
    exact ⟨by omega, by omega, h3⟩
  | lheap len aid cap cbp =>
    obtain ⟨hna, ⟨al, hal, hal2, hal3, hal4⟩, hcbs⟩ := wf_lheap_elim H len aid cap cbp hwa
    cases cbp with
    | none =>
      have hnoshare : ∀ x ∈ hs1 ++ hs2, ∀ ax, aidOf x = some ax → ax ≠ aid := by
        intro x hx ax hax heq
        subst heq
        obtain ⟨c2, hxc, hac⟩ := hcompat x hx ax hax rfl
        simp [cbpOf] at hac
      have hnoinline : ∀ c2 cell2, H.cbs c2 = some cell2 →
          ∀ pa, cell2.place = some pa → pa.1 ≠ aid := by
        intro c2 cell2 hc2 pa hpa heq
        obtain ⟨h1, h2, -⟩ := hinv.cbCount c2 cell2 hc2
        have h2n : 1 ≤ countH (hs1 ++ (Handle.lheap len aid cap none) :: hs2) c2 := h2
        obtain ⟨x, hxmem, hxpt⟩ :=
          countH_pos (hs1 ++ (Handle.lheap len aid cap none) :: hs2) c2 (by omega)
        have hwx : wfL H x = true := hinv.wfAll x hxmem
        have hxaid : aidOf x = some pa.1 :=
          wf_place H x hwx c2 cell2 ((pointsTo_eq_true x c2).mp hxpt) hc2 pa hpa
        rcases List.mem_append.mp hxmem with hm1 | hm2
        · exact hnoshare x (List.mem_append.mpr (Or.inl hm1)) pa.1 hxaid heq
        · rcases List.mem_cons.mp hm2 with hm3 | hm4
          · rw [hm3] at hxpt
            cases hxpt
          · exact hnoshare x (List.mem_append.mpr (Or.inr hm4)) pa.1 hxaid heq
      have hdH : dropH H (.lheap len aid cap none) = freeAlloc H aid := rfl
      rw [hdH]
      refine ⟨?_, ?_, pwNew⟩
      · intro x hx
        refine wfL_congr H _ x ?_ ?_ (by rw [freeAlloc_nA]) (by rw [freeAlloc_nC])
          (hwfsur x hx)
        · intro aid2 haid2
          exact freeAlloc_allocs_ne H aid aid2 (hnoshare x hx aid2 haid2)
        · intro c2 hc2
          obtain ⟨cell2, hcell2, -⟩ := wf_cb_some H x (hwfsur x hx) c2 hc2
          exact freeAlloc_cbs_keep H aid c2 cell2 hcell2
            (fun pa hpa => hnoinline c2 cell2 hcell2 pa hpa)
      · intro c2 cell2 hc2
        have hc2H : H.cbs c2 = some cell2 := freeAlloc_cbs_inv H aid c2 cell2 hc2
        obtain ⟨h1, h2, h3⟩ := hinv.cbCount c2 cell2 hc2H
        rw [countH_mid_split] at h1 h2
        have hp : pointsTo (Handle.lheap len aid cap none) c2 = false := rfl
        simp only [hp, Bool.false_eq_true, if_false] at h1 h2
        rw [countH_append]
        exact ⟨by omega, by omega, h3⟩
    | some c =>
      obtain ⟨hcn, cell, hcb, hv2, hvU, hplace⟩ := hcbs c rfl
      obtain ⟨hc1eq, hc1ge, -⟩ := hinv.cbCount c cell hcb
      have hc1eqn : cell.val / 2 =
          countH (hs1 ++ (Handle.lheap len aid cap (some c)) :: hs2) c := hc1eq
      have hpta : pointsTo (Handle.lheap len aid cap (some c)) c = true := by
        simp [pointsTo]
      have hdH : dropH H (.lheap len aid cap (some c)) = dropLong H aid (some c) := rfl
      rw [hdH]
      by_cases h3 : 3 < cell.val
      · rw [dropLong_decr H aid c cell hcb h3 hvU]
        refine ⟨?_, ?_, pwNew⟩
        · intro x hx
          exact wf_after_setCbVal H x c cell (cell.val - 2) hcb (by omega) (by omega)
            (by omega) (hwfsur x hx)
        · intro c2 cell2 hc2
          by_cases hcc : c2 = c
          · subst hcc
            rw [setCbVal_cbs_self H c2 _ cell hcb] at hc2
            injection hc2 with h6
            have hv2e : cell2.val = cell.val - 2 := by rw [← h6]
            rw [countH_mid_split] at hc1eq hc1ge
            simp only [hpta, eq_self_iff_true, if_true] at hc1eq hc1ge
            rw [countH_append]
            exact ⟨by omega, by omega, by omega⟩
          · rw [setCbVal_cbs_ne _ _ _ _ hcc] at hc2
            obtain ⟨h1, h2, h9⟩ := hinv.cbCount c2 cell2 hc2
            rw [countH_mid_split] at h1 h2
            have hp : pointsTo (Handle.lheap len aid cap (some c)) c2 = false := by
              simp only [pointsTo, beq_eq_false_iff_ne, ne_eq]
              omega
            simp only [hp, Bool.false_eq_true, if_false] at h1 h2
            rw [countH_append]
            exact ⟨by omega, by omega, h9⟩
      · have hcount1 : countH (hs1 ++ (Handle.lheap len aid cap (some c)) :: hs2) c = 1 := by
          have := hc1eqn
          omega
        have hzero : countH (hs1 ++ hs2) c = 0 := by
          rw [countH_mid_split] at hcount1
          simp only [hpta, eq_self_iff_true, if_true] at hcount1
          rw [countH_append]
          omega
        have hnopt : ∀ x ∈ hs1 ++ hs2, pointsTo x c = false := by
          intro x hx
          by_contra hptx
          have hptx2 : pointsTo x c = true := by
            cases hval : pointsTo x c
            · exact absurd hval hptx
            · rfl
          have : 0 < countH (hs1 ++ hs2) c := by
            rw [countH, List.countP_pos_iff]
            exact ⟨x, hx, by simp [hptx2]⟩
          omega
        have hnoshare : ∀ x ∈ hs1 ++ hs2, ∀ ax, aidOf x = some ax → ax ≠ aid := by
          intro x hx ax hax heq
          subst heq
          obtain ⟨c2, hxc, hac⟩ := hcompat x hx ax hax rfl
          simp only [cbpOf] at hac
          injection hac with h7
          have hptx : pointsTo x c = true := by
            refine (pointsTo_eq_true x c).mpr ?_
            rw [hxc, ← h7]
          rw [hnopt x hx] at hptx
          cases hptx
        have hnoinline : ∀ c2 cell2, H.cbs c2 = some cell2 → c2 ≠ c →
            ∀ pa, cell2.place = some pa → pa.1 ≠ aid := by
          intro c2 cell2 hc2 hne pa hpa heq
          obtain ⟨h1, h2, -⟩ := hinv.cbCount c2 cell2 hc2
          have h2n : 1 ≤ countH (hs1 ++ (Handle.lheap len aid cap (some c)) :: hs2) c2 := h2
          obtain ⟨x, hxmem, hxpt⟩ :=
            countH_pos (hs1 ++ (Handle.lheap len aid cap (some c)) :: hs2) c2 (by omega)
          have hwx : wfL H x = true := hinv.wfAll x hxmem
          have hxaid : aidOf x = some pa.1 :=
            wf_place H x hwx c2 cell2 ((pointsTo_eq_true x c2).mp hxpt) hc2 pa hpa
          rcases List.mem_append.mp hxmem with hm1 | hm2
          · exact hnoshare x (List.mem_append.mpr (Or.inl hm1)) pa.1 hxaid heq
          · rcases List.mem_cons.mp hm2 with hm3 | hm4
            · rw [hm3] at hxpt
              simp only [pointsTo] at hxpt
              have : c = c2 := eq_of_beq hxpt
              exact hne this.symm
            · exact hnoshare x (List.mem_append.mpr (Or.inr hm4)) pa.1 hxaid heq
        have hfreed : (dropLong H aid (some c)).cbs c = none := by
          refine dropLong_cbs_self_freed H aid c cell hcb (by omega) ?_
          intro hodd
          rcases hplace with ⟨-, hpar⟩ | ⟨off, hp, -, -, -⟩
          · omega
          · exact ⟨off, hp⟩
        have hcbsur : ∀ c2, c2 ≠ c → ∀ cell2, H.cbs c2 = some cell2 →
            (dropLong H aid (some c)).cbs c2 = H.cbs c2 := by
          intro c2 hne cell2 hcell2
          exact dropLong_cbs_keep H aid (some c) c2 cell2 hcell2
            (fun c3 hc3 => by injection hc3 with h7; rw [← h7]; exact hne)
            (fun pa hpa => hnoinline c2 cell2 hcell2 hne pa hpa)
        refine ⟨?_, ?_, pwNew⟩
        · intro x hx
          refine wfL_congr H _ x ?_ ?_ (by rw [dropLong_nA]) (by rw [dropLong_nC])
            (hwfsur x hx)
          · intro aid2 haid2
            exact dropLong_allocs_ne H aid (some c) aid2 (hnoshare x hx aid2 haid2)
          · intro c2 hc2
            have hnec : c2 ≠ c := by
              intro heq
              subst heq
              have hptx : pointsTo x c2 = true := (pointsTo_eq_true x c2).mpr hc2
              rw [hnopt x hx] at hptx
              cases hptx
            obtain ⟨cell2, hcell2, -⟩ := wf_cb_some H x (hwfsur x hx) c2 hc2
            exact hcbsur c2 hnec cell2 hcell2
        · intro c2 cell2 hc2
          by_cases hcc : c2 = c
          · subst hcc
            rw [hfreed] at hc2
            cases hc2
          · cases hx : H.cbs c2 with
            | none =>
              rw [dropLong_cbs_none H aid (some c) c2 hx] at hc2
              cases hc2
            | some cell0 =>
              rw [hcbsur c2 hcc cell0 hx, hx] at hc2
              injection hc2 with h6
              obtain ⟨h1, h2, h9⟩ := hinv.cbCount c2 cell0 hx
              rw [countH_mid_split] at h1 h2
              have hp : pointsTo (Handle.lheap len aid cap (some c)) c2 = false := by
                simp only [pointsTo, beq_eq_false_iff_ne, ne_eq]
                omega
              simp only [hp, Bool.false_eq_true, if_false] at h1 h2
              rw [countH_append, ← h6]
              exact ⟨by omega, by omega, h9⟩

/-- A freshly constructed single-handle state satisfies the global
invariant. -/
theorem invG_single_fresh (din : List Nat) (cap mincap : Nat) (r : Heap × Handle)
    (f : FreshSpec H0 din cap mincap r) : InvG (r.1, [r.2]) := by
  refine ⟨?_, ?_, by simp⟩
  · intro x hx
    have hx2 : x = r.2 := List.mem_singleton.mp hx
    rw [hx2]
    exact f.wf
  · intro c cell hc
    rcases f.cbCase with ⟨hh, hcbs, -⟩ | ⟨hh, hcb0, -⟩
    · rw [hcbs] at hc
      exact Option.noConfusion hc
    · by_cases hc0 : c = H0.nC
      · subst hc0
        rw [hcb0] at hc
        injection hc with h1
        have hcount : countH [r.2] H0.nC = 1 := by
          rw [hh, countH_single]
          simp [pointsTo]
        rw [hcount, ← h1]
        exact ⟨(by decide : (3:Nat) / 2 = 1), (by decide : (1:Nat) ≤ 1),
          (by decide : (3:Nat) < USIZE)⟩
      · rw [f.cbsOld c hc0] at hc
        exact Option.noConfusion hc

/-- Initial single-handle states satisfy the global invariant. -/
theorem invInit (s : GState) (hinit : InitG s) : InvG s := by
  cases hinit with
  | fromSliceInit sl =>
    by_cases hlen : sl.length ≤ SHORTLEN
    · have heq : fromSlice H0 sl = (H0, Handle.short sl) := by
        simp [fromSlice, hlen]
      rw [heq]
      refine ⟨?_, ?_, by simp⟩
      · intro x hx
        rw [List.mem_singleton.mp hx]
        simp [wfL, hlen]
      · intro c cell hc
        exact Option.noConfusion hc
    · have heq : fromSlice H0 sl = innerFromSlice H0 sl true 0 := by
        simp [fromSlice, hlen]
      rw [heq]
      exact invG_single_fresh sl _ 0 _ (innerFromSlice_spec H0 sl 0)
  | fromVecInit v hlv =>
    by_cases hsl : v.data.length ≤ SHORTLEN
    · have heq : fromVec H0 v = (H0, Handle.short v.data) := by
        simp [fromVec, hsl]
      rw [heq]
      refine ⟨?_, ?_, by simp⟩
      · intro x hx
        rw [List.mem_singleton.mp hx]
        simp [wfL, hsl]
      · intro c cell hc
        exact Option.noConfusion hc
    · have heq : fromVec H0 v = innerFromVec H0 v true 0 := by
        simp [fromVec, hsl]
      rw [heq]
      exact invG_single_fresh v.data v.cap 0 _
        (innerFromVec_spec H0 v 0 hlv (Nat.zero_le _) (by simp [SHORTLEN] at hsl; omega))
  | fromStaticInit sl =>
    by_cases hlen : sl.length ≤ SHORTLEN
    · have heq : fromStatic sl = Handle.short sl := by
        simp [fromStatic, hlen]
      rw [heq]
      refine ⟨?_, ?_, by simp⟩
      · intro x hx
        rw [List.mem_singleton.mp hx]
        simp [wfL, hlen]
      · intro c cell hc
        exact Option.noConfusion hc
    · have heq : fromStatic sl = Handle.lstatic sl := by
        simp [fromStatic, hlen]
      rw [heq]
      refine ⟨?_, ?_, by simp⟩
      · intro x hx
        rw [List.mem_singleton.mp hx]
        rfl
      · intro c cell hc
        exact Option.noConfusion hc
  | newInit =>
    refine ⟨?_, ?_, by simp⟩
    · intro x hx
      rw [List.mem_singleton.mp hx]
      decide
    · intro c cell hc
      exact Option.noConfusion hc

/-- Every reachable state satisfies the global invariant. -/
theorem invReach (s : GState) (h : ReachG s) : InvG s := by
  induction h with
  | init s2 hi => exact invInit s2 hi
  | next s2 s3 hr hst ih =>
    cases hst with
    | cloneStep H hs1 hs2 a H2 a2 b hcl => exact invClone H hs1 hs2 a H2 a2 b ih hcl
    | dropStep H hs1 hs2 a => exact invDrop H hs1 hs2 a ih

/-- C4: in every reachable state of a set of live handles sharing one
heap, each control block's stored count (its value divided by 2, the
placement flag being bit 0) equals exactly the number of live handles
pointing at it.  For a live Long handle on control block `c` holding
`cell`: dropping the handle frees the payload allocation exactly when the
pre-decrement value is at most 3 (equivalently, exactly when it is the
last handle pointing at `c`), removes the control block exactly in the
same case, and otherwise merely subtracts 2 from the stored value; the
placement flag is 0 exactly for a separately allocated control block
(the only case `Box`-freeing applies to); and a successful clone adds
exactly 2 to the stored value. -/
theorem c4_refcount (s : GState) (hr : ReachG s) :
    (∀ c cell, s.1.cbs c = some cell →
      cell.val / 2 = countH s.2 c ∧ 1 ≤ countH s.2 c) ∧
    (∀ hs1 hs2 len aid cap c cell,
      s.2 = hs1 ++ (Handle.lheap len aid cap (some c)) :: hs2 →
      s.1.cbs c = some cell →
      ((dropH s.1 (Handle.lheap len aid cap (some c))).allocs aid = none ↔
        cell.val ≤ 3) ∧
      (cell.val ≤ 3 ↔ countH s.2 c = 1) ∧
      ((dropH s.1 (Handle.lheap len aid cap (some c))).cbs c = none ↔
        cell.val ≤ 3) ∧
      (3 < cell.val →
        (dropH s.1 (Handle.lheap len aid cap (some c))).cbs c =
          some ⟨cell.val - 2, cell.place⟩) ∧
      (cell.place = none ↔ cell.val % 2 = 0) ∧
      (∀ H2 a2 b, cloneH s.1 (Handle.lheap len aid cap (some c)) = (H2, some (a2, b)) →
        H2.cbs c = some ⟨cell.val + 2, cell.place⟩)) := by
  have hinv := invReach s hr
  refine ⟨fun c cell hc =>
    ⟨(hinv.cbCount c cell hc).1, (hinv.cbCount c cell hc).2.1⟩, ?_⟩
  intro hs1 hs2 len aid cap c cell hdec hcb
  have hmem : (Handle.lheap len aid cap (some c)) ∈ s.2 := by
    rw [hdec]
    simp
  have hwa := hinv.wfAll _ hmem
  obtain ⟨hna, ⟨al, hal, hal2, hal3, hal4⟩, hcbf⟩ :=
    wf_lheap_elim s.1 len aid cap (some c) hwa
  obtain ⟨hcn, cell2, hcb2, hv2, hvU, hplace⟩ := hcbf c rfl
  rw [hcb] at hcb2
  injection hcb2 with hce
  subst hce
  obtain ⟨hcnt1, hcnt2, -⟩ := hinv.cbCount c cell hcb
  have hiff3 : cell.val ≤ 3 ↔ countH s.2 c = 1 := by
    constructor
    · intro h
      omega
    · intro h
      omega
  have hpiff : cell.place = none ↔ cell.val % 2 = 0 := by
    rcases hplace with ⟨hp, he⟩ | ⟨off, hp, ho, -, -⟩
    · exact ⟨fun h2 => he, fun h2 => hp⟩
    · constructor
      · intro h
        rw [hp] at h
        cases h
      · intro h
        omega
  have hclone : ∀ H2 a2 b,
      cloneH s.1 (Handle.lheap len aid cap (some c)) = (H2, some (a2, b)) →
      H2.cbs c = some ⟨cell.val + 2, cell.place⟩ := by
    intro H2 a2 b hcl
    simp only [cloneH, hcb] at hcl
    by_cases hh : HALFMAX < cell.val
    · rw [if_pos hh] at hcl
      exact absurd hcl (by simp)
    · rw [if_neg hh] at hcl
      have hH2 : H2 = setCbVal s.1 c ((cell.val + 2) % USIZE) :=
        (congrArg Prod.fst hcl).symm
      have hlt : cell.val + 2 < USIZE := by
        have h1 := HALFMAX_eq
        have h2 := USIZE_eq
        omega
      rw [hH2, add2_mod cell.val hlt]
      exact setCbVal_cbs_self s.1 c (cell.val + 2) cell hcb
  by_cases h3 : 3 < cell.val
  · have hdrop := dropLong_decr s.1 aid c cell hcb h3 hvU
    have hdH : dropH s.1 (Handle.lheap len aid cap (some c)) =
        setCbVal s.1 c (cell.val - 2) := hdrop
    refine ⟨?_, hiff3, ?_, fun h4 => ?_, hpiff, hclone⟩
    · constructor
      · intro hnone
        rw [hdH, setCbVal_allocs, hal] at hnone
        cases hnone
      · intro hle
        exact absurd hle (by omega)
    · constructor
      · intro hnone
        rw [hdH, setCbVal_cbs_self s.1 c _ cell hcb] at hnone
        cases hnone
      · intro hle
        exact absurd hle (by omega)
    · rw [hdH]
      exact setCbVal_cbs_self s.1 c (cell.val - 2) cell hcb
  · have hle3 : cell.val ≤ 3 := by omega
    have hfreed : (dropLong s.1 aid (some c)).cbs c = none := by
      refine dropLong_cbs_self_freed s.1 aid c cell hcb hle3 ?_
      intro hodd
      rcases hplace with ⟨hp, he⟩ | ⟨off, hp, ho, -, -⟩
      · omega
      · exact ⟨off, hp⟩
    have halloc : (dropLong s.1 aid (some c)).allocs aid = none := by
      simp only [dropLong, hcb]
      rw [if_neg (by omega)]
      exact freeAlloc_allocs_self _ aid
    refine ⟨⟨fun h4 => hle3, fun h4 => halloc⟩, hiff3,
      ⟨fun h4 => hle3, fun h4 => hfreed⟩,
      fun h4 => absurd h4 (by omega), hpiff, hclone⟩

theorem c4_refcount_witness :
    ReachG ((fromSlice H0 (List.replicate 45 1)).1,
      [(fromSlice H0 (List.replicate 45 1)).2]) ∧
    ((3:Nat) / 2 = countH [(fromSlice H0 (List.replicate 45 1)).2] 0 ∧
      1 ≤ countH [(fromSlice H0 (List.replicate 45 1)).2] 0) ∧
    (dropH (fromSlice H0 (List.replicate 45 1)).1
      (Handle.lheap 45 0 56 (some 0))).allocs 0 = none := by
  have hr : ReachG ((fromSlice H0 (List.replicate 45 1)).1,
      [(fromSlice H0 (List.replicate 45 1)).2]) :=
    ReachG.init _ (InitG.fromSliceInit (List.replicate 45 1))
  refine ⟨hr, (c4_refcount _ hr).1 0 ⟨3, some (0, 48)⟩ (by decide), ?_⟩
  exact ((c4_refcount _ hr).2 [] [] 45 0 56 0 ⟨3, some (0, 48)⟩
    (by decide) (by decide)).1.mpr (by decide)

end Mastring
